import Mathlib

set_option maxHeartbeats 1000000
set_option maxRecDepth 2048

/-!
Verification of `Solution::shortestAlternatingPaths` (src/dsa.cpp).

The C++ routine runs a breadth-first search over the expanded state space
(node, color-of-previous-edge) of a directed graph with red (0) and blue (1)
edges, returning for each node the length of a shortest walk from node 0 whose
consecutive edges alternate colors, or -1 when no such walk exists.

The shallow embedding below models:
* C++ `int` values as `Int` carried exactly, with the one arithmetic
  operation of the body — `currentDistance + 1` — checked against the
  32-bit signed range: a result above `INT_MAX = 2^31 - 1` is signed
  overflow, undefined behavior in C++, modelled as the error result `none`
  (see `intAdd1`); the `INT_MAX` sentinel is kept explicit;
* `std::vector` as `List`, with every indexed access bounds-checked: an
  out-of-range access (undefined behavior in C++) is modelled as the error
  result `none`;
* the `while (!q.empty())` loop as a fuel-indexed recursion; the fuel passed by
  the top-level function is `2*n + 1`, and the development proves that on
  inputs satisfying the documented precondition the fuel is never exhausted
  (the loop performs at most `2*n` iterations).

The source's parameter `n` is a 32-bit `int`, so the function is callable
only with `0 ≤ n ≤ 2^31 - 1`; the model takes `n : Nat`, and every
counterexample below stays within that representable range
(`n = 2^30 + 1`).
-/

namespace AltPaths

/-! ## Shallow embedding of `Solution::shortestAlternatingPaths` -/

/-- The C++ sentinel `std::numeric_limits<int>::max()` used as "infinity". -/
def INT_MAX : Int := 2147483647

/-- An edge list (`vector<vector<int>>` in the source): each edge is the pair
`(edge[0], edge[1])`. -/
abbrev EdgeList := List (Int × Int)

/-- Read the color-`c` component of a `visited[v]` row (`visited[v][c]`);
colors are 0 (red) and 1 (blue). -/
def getFlag (pr : Bool × Bool) (c : Nat) : Bool := if c = 0 then pr.1 else pr.2

/-- Set the color-`c` component of a `visited[v]` row to `true`. -/
def setFlag (pr : Bool × Bool) (c : Nat) : Bool × Bool :=
  if c = 0 then (true, pr.2) else (pr.1, true)

/-- Bounds-checked read `v[i]` of a C++ vector at an `int` index; out-of-range
access (undefined behavior in C++) is modelled as `none`. -/
def vecGet {α : Type} (l : List α) (i : Int) : Option α :=
  if 0 ≤ i then l[i.toNat]? else none

/-- Bounds-checked write `v[i] = x` of a C++ vector at an `int` index. -/
def vecSet {α : Type} (l : List α) (i : Int) (x : α) : Option (List α) :=
  if 0 ≤ i ∧ i.toNat < l.length then some (l.set i.toNat x) else none

/-- The mutable locals of the search: the distance array `dist`, the
visited-state matrix `visited`, and the queue `q` of
`{currentNode, currentDistance, prevEdgeColor}` tuples. -/
structure BfsState where
  dist : List Int
  visited : List (Bool × Bool)
  q : List (Int × Int × Nat)
  deriving DecidableEq, Repr

/-- One iteration of the adjacency-building loops:
`adj[edge[0]].push_back({edge[1], color})`. -/
def pushEdge (adj : List (List (Int × Nat))) (e : Int × Int) (c : Nat) :
    Option (List (List (Int × Nat))) :=
  match vecGet adj e.1 with
  | none => none
  | some l => vecSet adj e.1 (l ++ [(e.2, c)])

/-- The loop `for (auto& edge : es) adj[edge[0]].push_back({edge[1], c})`. -/
def buildAdj (adj : List (List (Int × Nat))) (es : EdgeList) (c : Nat) :
    Option (List (List (Int × Nat))) :=
  match es with
  | [] => some adj
  | e :: rest =>
    match pushEdge adj e c with
    | none => none
    | some adj2 => buildAdj adj2 rest c

/-- The adjacency list of the source: built from `redEdges` with color 0, then
`blueEdges` with color 1, starting from `vector<vector<pair<int,int>>> adj(n)`. -/
def mkAdj (n : Nat) (redEdges blueEdges : EdgeList) :
    Option (List (List (Int × Nat))) :=
  match buildAdj (List.replicate n []) redEdges 0 with
  | none => none
  | some adj1 => buildAdj adj1 blueEdges 1

/-- The C++ expression `currentDistance + 1`, evaluated in 32-bit signed
`int` arithmetic: a mathematical result outside `[-2^31, 2^31 - 1]` is signed
overflow — undefined behavior in C++ — modelled as `none`. -/
def intAdd1 (currentDistance : Int) : Option Int :=
  if -2147483648 ≤ currentDistance + 1 ∧ currentDistance + 1 ≤ INT_MAX then
    some (currentDistance + 1)
  else none

/-- The inner loop `for (auto& [neighbor, edgeColor] : adj[currentNode])` of the
BFS: skip same-colored edges, and on the first visit of a state
`(neighbor, edgeColor)` mark it visited, evaluate `currentDistance + 1`
(overflow-checked `int` arithmetic), record
`dist[neighbor] = min(dist[neighbor], currentDistance + 1)`, and enqueue
`{neighbor, currentDistance + 1, edgeColor}`. -/
def processEdges (edges : List (Int × Nat)) (prevEdgeColor : Nat)
    (currentDistance : Int) (s : BfsState) : Option BfsState :=
  match edges with
  | [] => some s
  | (neighbor, edgeColor) :: rest =>
    if edgeColor ≠ prevEdgeColor then
      match vecGet s.visited neighbor with
      | none => none
      | some flags =>
        if getFlag flags edgeColor then
          processEdges rest prevEdgeColor currentDistance s
        else
          match vecSet s.visited neighbor (setFlag flags edgeColor) with
          | none => none
          | some visited2 =>
            match intAdd1 currentDistance with
            | none => none
            | some nd =>
              match vecGet s.dist neighbor with
              | none => none
              | some dv =>
                match vecSet s.dist neighbor (min dv nd) with
                | none => none
                | some dist2 =>
                  processEdges rest prevEdgeColor currentDistance
                    { dist := dist2, visited := visited2,
                      q := s.q ++ [(neighbor, nd, edgeColor)] }
    else processEdges rest prevEdgeColor currentDistance s

/-- One iteration of the `while (!q.empty())` loop: pop the front tuple
`{currentNode, currentDistance, prevEdgeColor}` and process the outgoing edges
`adj[currentNode]`. On an empty queue the state is returned unchanged. -/
def bfsStep (adj : List (List (Int × Nat))) (s : BfsState) : Option BfsState :=
  match s.q with
  | [] => some s
  | (currentNode, currentDistance, prevEdgeColor) :: rest =>
    match vecGet adj currentNode with
    | none => none
    | some edges =>
      processEdges edges prevEdgeColor currentDistance { s with q := rest }

/-- The `while (!q.empty())` loop, indexed by fuel.  The top-level function
supplies fuel `2*n + 1`, which is proved sufficient for every input satisfying
the documented precondition. -/
def bfsLoop (adj : List (List (Int × Nat))) : Nat → BfsState → Option BfsState
  | 0, _ => none
  | fuel + 1, s =>
    match s.q with
    | [] => some s
    | _ :: _ =>
      match bfsStep adj s with
      | none => none
      | some s2 => bfsLoop adj fuel s2

/-- The initialisation block of the source: `dist(n, INT_MAX)`, `dist[0] = 0`,
`visited(n, {false,false})`, the two seed pushes `{0,0,0}` and `{0,0,1}`, and
`visited[0][0] = visited[0][1] = true`. -/
def initState (n : Nat) : Option BfsState :=
  match vecSet (List.replicate n INT_MAX) 0 0 with
  | none => none
  | some dist0 =>
    match vecGet (List.replicate n ((false : Bool), (false : Bool))) 0 with
    | none => none
    | some row0 =>
      match vecSet (List.replicate n ((false : Bool), (false : Bool))) 0
          (setFlag row0 0) with
      | none => none
      | some visited1 =>
        match vecGet visited1 0 with
        | none => none
        | some row1 =>
          match vecSet visited1 0 (setFlag row1 1) with
          | none => none
          | some visited2 =>
            some { dist := dist0, visited := visited2,
                   q := [(0, 0, 0), (0, 0, 1)] }

/-- The final pass `if (dist[i] == INT_MAX) dist[i] = -1` over the whole array,
followed by `return dist`. -/
def finalize (dist : List Int) : List Int :=
  dist.map (fun d => if d = INT_MAX then -1 else d)

/-- Shallow embedding of `Solution::shortestAlternatingPaths` from src/dsa.cpp.
`none` models undefined behavior (an out-of-range vector access). -/
def shortestAlternatingPaths (n : Nat) (redEdges blueEdges : EdgeList) :
    Option (List Int) :=
  match mkAdj n redEdges blueEdges with
  | none => none
  | some adj =>
    match initState n with
    | none => none
    | some s0 =>
      match bfsLoop adj (2 * n + 1) s0 with
      | none => none
      | some sF => some (finalize sF.dist)

/-! ### Variant: unconditional distance assignment on first visit

The spec suggests replacing `dist[neighbor] = std::min(dist[neighbor],
currentDistance + 1)` by the unconditional `dist[neighbor] = currentDistance +
1`.  The variant below is identical to `processEdges` except for that one
line. -/

/-- `processEdges` with `dist[neighbor] = currentDistance + 1` instead of the
`std::min` update. -/
def processEdgesNoMin (edges : List (Int × Nat)) (prevEdgeColor : Nat)
    (currentDistance : Int) (s : BfsState) : Option BfsState :=
  match edges with
  | [] => some s
  | (neighbor, edgeColor) :: rest =>
    if edgeColor ≠ prevEdgeColor then
      match vecGet s.visited neighbor with
      | none => none
      | some flags =>
        if getFlag flags edgeColor then
          processEdgesNoMin rest prevEdgeColor currentDistance s
        else
          match vecSet s.visited neighbor (setFlag flags edgeColor) with
          | none => none
          | some visited2 =>
            match intAdd1 currentDistance with
            | none => none
            | some nd =>
              match vecGet s.dist neighbor with
              | none => none
              | some _ =>
                match vecSet s.dist neighbor nd with
                | none => none
                | some dist2 =>
                  processEdgesNoMin rest prevEdgeColor currentDistance
                    { dist := dist2, visited := visited2,
                      q := s.q ++ [(neighbor, nd, edgeColor)] }
    else processEdgesNoMin rest prevEdgeColor currentDistance s

/-- `bfsStep` for the unconditional-assignment variant. -/
def bfsStepNoMin (adj : List (List (Int × Nat))) (s : BfsState) :
    Option BfsState :=
  match s.q with
  | [] => some s
  | (currentNode, currentDistance, prevEdgeColor) :: rest =>
    match vecGet adj currentNode with
    | none => none
    | some edges =>
      processEdgesNoMin edges prevEdgeColor currentDistance { s with q := rest }

/-- `bfsLoop` for the unconditional-assignment variant. -/
def bfsLoopNoMin (adj : List (List (Int × Nat))) :
    Nat → BfsState → Option BfsState
  | 0, _ => none
  | fuel + 1, s =>
    match s.q with
    | [] => some s
    | _ :: _ =>
      match bfsStepNoMin adj s with
      | none => none
      | some s2 => bfsLoopNoMin adj fuel s2

/-- `shortestAlternatingPaths` with the unconditional distance assignment. -/
def shortestAlternatingPathsNoMin (n : Nat) (redEdges blueEdges : EdgeList) :
    Option (List Int) :=
  match mkAdj n redEdges blueEdges with
  | none => none
  | some adj =>
    match initState n with
    | none => none
    | some s0 =>
      match bfsLoopNoMin adj (2 * n + 1) s0 with
      | none => none
      | some sF => some (finalize sF.dist)

/-! ### Instrumented loop counting queue pushes -/

def bfsLoopCount (adj : List (List (Int × Nat))) :
    Nat → BfsState → Nat → Option (BfsState × Nat)
  | 0, _, _ => none
  | fuel + 1, s, acc =>
    match s.q with
    | [] => some (s, acc)
    | _ :: _ =>
      match bfsStep adj s with
      | none => none
      | some s2 => bfsLoopCount adj fuel s2 (acc + (s2.q.length + 1 - s.q.length))

/-! ### Store-threaded version for the frame property

The C++ function receives `redEdges` and `blueEdges` by non-const reference,
so in principle every statement in its body could mutate them.  To state the
frame property the version below threads an explicit store holding the two
caller-supplied vectors through every phase of the body; reads go through the
store, and the final store is returned alongside the result. -/

/-- The caller-owned mutable data reachable from the function body. -/
structure Store where
  redEdges : EdgeList
  blueEdges : EdgeList
  deriving DecidableEq

/-- Select the edge list the color-`c` building loop iterates over. -/
def storeList (st : Store) (c : Nat) : EdgeList :=
  if c = 0 then st.redEdges else st.blueEdges

/-- Store-threaded adjacency building: iterates over `storeList st c` by index
(reading the store at every step), threading the store through. -/
def buildAdjST (c : Nat) : Nat → Nat → Store → List (List (Int × Nat)) →
    Option (List (List (Int × Nat)) × Store)
  | 0, _, st, adj => some (adj, st)
  | k + 1, i, st, adj =>
    match (storeList st c)[i]? with
    | none => none
    | some e =>
      match pushEdge adj e c with
      | none => none
      | some adj2 => buildAdjST c k (i + 1) st adj2

/-- Store-threaded BFS loop (the loop body never names the edge vectors, but
the store stays in scope for the whole body, so it is threaded through). -/
def bfsLoopST (adj : List (List (Int × Nat))) :
    Nat → BfsState → Store → Option (BfsState × Store)
  | 0, _, _ => none
  | fuel + 1, s, st =>
    match s.q with
    | [] => some (s, st)
    | _ :: _ =>
      match bfsStep adj s with
      | none => none
      | some s2 => bfsLoopST adj fuel s2 st

/-- Store-threaded `shortestAlternatingPaths`: same computation, but the final
contents of the caller's `redEdges`/`blueEdges` are returned with the result. -/
def shortestAlternatingPathsST (n : Nat) (st : Store) :
    Option (List Int × Store) :=
  match buildAdjST 0 st.redEdges.length 0 st (List.replicate n []) with
  | none => none
  | some (adj1, st1) =>
    match buildAdjST 1 st1.blueEdges.length 0 st1 adj1 with
    | none => none
    | some (adj, st2) =>
      match initState n with
      | none => none
      | some s0 =>
        match bfsLoopST adj (2 * n + 1) s0 st2 with
        | none => none
        | some (sF, st3) => some (finalize sF.dist, st3)

/-! ### Specification-side definitions -/

/-- The colored-edge relation of the input: color 0 edges come from `red`,
color 1 edges from `blue`. -/
def edgeIn (red blue : EdgeList) (u v : Nat) (c : Nat) : Prop :=
  (c = 0 ∧ ((u : Int), (v : Int)) ∈ red) ∨ (c = 1 ∧ ((u : Int), (v : Int)) ∈ blue)

/-- `AltReach red blue v c d`: there is a walk of `d` edges from node 0 to node
`v` in which no two consecutive edges share a color and (when `d > 0`) the last
edge has color `c`; the empty walk at node 0 carries either color tag `c < 2`. -/
inductive AltReach (red blue : EdgeList) : Nat → Nat → Nat → Prop where
  | start (c : Nat) (hc : c < 2) : AltReach red blue 0 c 0
  | step {u p d v c : Nat} : AltReach red blue u p d → edgeIn red blue u v c →
      c ≠ p → AltReach red blue v c (d + 1)

/-- `(v, c)` is a state of the expanded search space at exact BFS distance `d`:
reachable in `d` alternating steps and in no fewer. -/
def MinSD (red blue : EdgeList) (v c d : Nat) : Prop :=
  AltReach red blue v c d ∧ ∀ d2, AltReach red blue v c d2 → d ≤ d2

/-- `d` is the length of a shortest alternating walk from node 0 to node `v`. -/
def MinNodeDist (red blue : EdgeList) (v d : Nat) : Prop :=
  (∃ c, AltReach red blue v c d) ∧ ∀ d2, (∃ c, AltReach red blue v c d2) → d ≤ d2

/-- The documented precondition on an edge list: both endpoints of every edge
lie in `[0, n-1]`. -/
def ValidEdges (n : Nat) (es : EdgeList) : Prop :=
  ∀ e ∈ es, 0 ≤ e.1 ∧ e.1 < (n : Int) ∧ 0 ≤ e.2 ∧ e.2 < (n : Int)

instance (n : Nat) (es : EdgeList) : Decidable (ValidEdges n es) := by
  unfold ValidEdges; infer_instance

/-! ### Definitions supporting the proofs -/

/-- Reading `visited[v][c]` with the row defaulting to `(false,false)` when `v`
is out of range; this is the convenient total view of the visited matrix. -/
def flagOn (visited : List (Bool × Bool)) (v c : Nat) : Bool :=
  getFlag (visited.getD v (false, false)) c

/-- Number of unset flags in one `visited` row. -/
def rowWeight (pr : Bool × Bool) : Nat :=
  (if pr.1 then 0 else 1) + (if pr.2 then 0 else 1)

/-- Total number of unset `(node, color)` flags: the quantity that strictly
decreases whenever the search marks a new state visited. -/
def unvisited (visited : List (Bool × Bool)) : Nat :=
  (visited.map rowWeight).sum

/-- The adjacency row the two building loops produce for node `u`: the targets
of `u`'s red edges tagged 0 (in input order) followed by the targets of its
blue edges tagged 1. -/
def adjRow (red blue : EdgeList) (u : Nat) : List (Int × Nat) :=
  (red.filter (fun e => e.1 = (u : Int))).map (fun e => (e.2, 0)) ++
    (blue.filter (fun e => e.1 = (u : Int))).map (fun e => (e.2, 1))

/-! ### The BFS invariant -/

/-- A queue entry is well-formed: in-range node, color below 2, distance equal
to the exact BFS distance of its `(node, color)` state, and the state already
marked visited. -/
def EntryOk (red blue : EdgeList) (n : Nat) (visited : List (Bool × Bool))
    (x : Int × Int × Nat) : Prop :=
  ∃ vn dd : Nat, x.1 = (vn : Int) ∧ x.2.1 = (dd : Int) ∧ vn < n ∧ x.2.2 < 2 ∧
    MinSD red blue vn x.2.2 dd ∧ flagOn visited vn x.2.2 = true

/-- State `(v, c)` has been fully expanded: every alternating successor is
marked visited. -/
def SuccClosed (red blue : EdgeList) (visited : List (Bool × Bool))
    (v c : Nat) : Prop :=
  ∀ v2 c2, edgeIn red blue v v2 c2 → c2 ≠ c → flagOn visited v2 c2 = true

/-- The distance array entry of node `v` is `INT_MAX` while no state of `v` is
visited, and otherwise records the minimum BFS distance over the visited states
of `v` (clipped at the `INT_MAX` sentinel). -/
def DistOk (red blue : EdgeList) (s : BfsState) (v : Nat) : Prop :=
  (s.dist.getD v 0 = INT_MAX ∧ ∀ c, flagOn s.visited v c = false) ∨
  (∃ dm : Nat, s.dist.getD v 0 = min INT_MAX (dm : Int) ∧
    (∃ c, flagOn s.visited v c = true ∧ MinSD red blue v c dm) ∧
    ∀ c d2, flagOn s.visited v c = true → MinSD red blue v c d2 → dm ≤ d2)

/-- The invariant holding at every entry to the `while` loop's guard. -/
structure Inv (n : Nat) (red blue : EdgeList) (s : BfsState) : Prop where
  distLen : s.dist.length = n
  visLen : s.visited.length = n
  zeroFlag0 : flagOn s.visited 0 0 = true
  zeroFlag1 : flagOn s.visited 0 1 = true
  entries : ∀ x ∈ s.q, EntryOk red blue n s.visited x
  sorted : s.q.Pairwise (fun a b => a.2.1 ≤ b.2.1)
  band : ∀ a ∈ s.q, ∀ b ∈ s.q, a.2.1 ≤ b.2.1 + 1
  flagCover : ∀ v c, c < 2 → flagOn s.visited v c = true →
      (∃ x ∈ s.q, x.1 = (v : Int) ∧ x.2.2 = c) ∨
        SuccClosed red blue s.visited v c
  discovered : ∀ v c dd, MinSD red blue v c dd →
      (∀ x, s.q.head? = some x → (dd : Int) < x.2.1) →
      flagOn s.visited v c = true
  distOk : ∀ v, v < n → DistOk red blue s v
  flagDist : ∀ v c dd, flagOn s.visited v c = true →
      MinSD red blue v c dd → (dd : Int) ≤ INT_MAX

/-- The invariant holding between iterations of the inner edge loop, while the
popped state `(u, p)` at distance `dpop` is being expanded. -/
structure Mid (n : Nat) (red blue : EdgeList) (u p dpop : Nat)
    (s : BfsState) : Prop where
  distLen : s.dist.length = n
  visLen : s.visited.length = n
  zeroFlag0 : flagOn s.visited 0 0 = true
  zeroFlag1 : flagOn s.visited 0 1 = true
  entries : ∀ x ∈ s.q, EntryOk red blue n s.visited x
  sorted : s.q.Pairwise (fun a b => a.2.1 ≤ b.2.1)
  lower : ∀ x ∈ s.q, (dpop : Int) ≤ x.2.1
  upper : ∀ x ∈ s.q, x.2.1 ≤ (dpop : Int) + 1
  popped : MinSD red blue u p dpop
  pColor : p < 2
  uLt : u < n
  flagCoverMid : ∀ v c, c < 2 → flagOn s.visited v c = true →
      (∃ x ∈ s.q, x.1 = (v : Int) ∧ x.2.2 = c) ∨ (v = u ∧ c = p) ∨
        SuccClosed red blue s.visited v c
  belowFlag : ∀ v c dd, MinSD red blue v c dd → dd ≤ dpop →
      flagOn s.visited v c = true
  distOk : ∀ v, v < n → DistOk red blue s v
  flagDist : ∀ v c dd, flagOn s.visited v c = true →
      MinSD red blue v c dd → (dd : Int) ≤ INT_MAX

/-- Conclusions of running the inner edge loop: the `Mid` invariant is
maintained, visited flags only grow, the queue only grows at the back by
entries at distance `dpop + 1`, and the quantity (queue length + unvisited
states) is preserved (each push marks exactly one new state visited). -/
structure MidOut (n : Nat) (red blue : EdgeList) (u p dpop : Nat)
    (s s' : BfsState) : Prop where
  mid : Mid n red blue u p dpop s'
  mono : ∀ v c, flagOn s.visited v c = true → flagOn s'.visited v c = true
  qExt : ∃ nw, s'.q = s.q ++ nw ∧ ∀ x ∈ nw, x.2.1 = (dpop : Int) + 1
  measure : s'.q.length + unvisited s'.visited =
    s.q.length + unvisited s.visited

/-! ### A sentinel-collision input, and an overflowing one

`cexN = 2^30 + 1` nodes (so `cexN` is a representable `int` value): a red
chain `i -> i+1` for `0 ≤ i < 2^30`, and a blue self-loop `i -> i` at every
interior node `1 ≤ i ≤ 2^30 - 1` (`cexBlue`).  An alternating walk has to
interleave the red chain steps with blue self-loops, so the shortest
alternating walk to the last node `2^30` has exactly
`2 * 2^30 - 1 = 2^31 - 1 = INT_MAX` edges.  Every state of the expanded
search space has exact distance at most `INT_MAX` (the last node carries no
self-loop), so the run never evaluates `INT_MAX + 1` — no signed overflow —
yet the final pass converts the genuine distance `INT_MAX` of the last node
to `-1`.

`cexOvBlue` extends `cexBlue` with one more self-loop at the last node
`2^30`: then the state `(2^30, blue)` has exact distance `2^31 > INT_MAX`,
and the run evaluates `currentDistance + 1 = INT_MAX + 1` in `int` — signed
overflow, undefined behavior. -/

def cexN : Nat := 2 ^ 30 + 1

def cexRed : EdgeList :=
  (List.range (2 ^ 30)).map (fun i : Nat => ((i : Int), (i + 1 : Int)))

def cexBlue : EdgeList :=
  (List.range (2 ^ 30 - 1)).map (fun i : Nat => ((i + 1 : Int), (i + 1 : Int)))

def cexOvBlue : EdgeList :=
  (List.range (2 ^ 30)).map (fun i : Nat => ((i + 1 : Int), (i + 1 : Int)))

/-! ### What the specification pins down for a single output entry -/

/-- The value the specification determines for the output entry of node `v`:
the shortest alternating-walk length when it is below the sentinel, `-1`
otherwise (unreachable, or sentinel collision). -/
def EntrySpec (red blue : EdgeList) (v : Nat) (e : Int) : Prop :=
  (∃ d : Nat, MinNodeDist red blue v d ∧ (d : Int) < INT_MAX ∧ e = (d : Int)) ∨
  (e = -1 ∧ ((∀ c d, ¬ AltReach red blue v c d) ∨
    ∃ d : Nat, MinNodeDist red blue v d ∧ INT_MAX ≤ (d : Int)))

/-! ### Basic lemmas about the primitive operations -/

theorem vecGet_natCast {α : Type} (l : List α) (v : Nat) :
    vecGet l (v : Int) = l[v]? := by
  simp [vecGet]

theorem vecGet_eq_some {α : Type} {l : List α} {i : Int} {x : α}
    (h : vecGet l i = some x) : 0 ≤ i ∧ l[i.toNat]? = some x := by
  unfold vecGet at h
  by_cases h0 : 0 ≤ i
  · simp [h0] at h; exact ⟨h0, h⟩
  · simp [h0] at h

theorem vecSet_natCast {α : Type} (l : List α) (v : Nat) (x : α) :
    vecSet l (v : Int) x = if v < l.length then some (l.set v x) else none := by
  simp [vecSet]

theorem vecSet_eq_some {α : Type} {l l' : List α} {i : Int} {x : α}
    (h : vecSet l i x = some l') :
    0 ≤ i ∧ i.toNat < l.length ∧ l' = l.set i.toNat x := by
  unfold vecSet at h
  by_cases hc : 0 ≤ i ∧ i.toNat < l.length
  · simp [hc] at h; exact ⟨hc.1, hc.2, h.symm⟩
  · simp [hc] at h

theorem vecSet_isSome {α : Type} (l : List α) (v : Nat) (x : α)
    (h : v < l.length) : vecSet l (v : Int) x = some (l.set v x) := by
  rw [vecSet_natCast]; simp [h]

theorem flagOn_eq_of_get? {visited : List (Bool × Bool)} {v : Nat}
    {pr : Bool × Bool} (h : visited[v]? = some pr) (c : Nat) :
    flagOn visited v c = getFlag pr c := by
  unfold flagOn
  rw [List.getD_eq_getElem?_getD, h]
  rfl

theorem getFlag_setFlag (pr : Bool × Bool) (c c' : Nat) :
    getFlag (setFlag pr c) c' =
      if (c' = 0) = (c = 0) then true else getFlag pr c' := by
  unfold getFlag setFlag
  by_cases h : c = 0 <;> by_cases h' : c' = 0 <;> simp [h, h']

theorem getFlag_setFlag_self (pr : Bool × Bool) (c : Nat) :
    getFlag (setFlag pr c) c = true := by
  rw [getFlag_setFlag]; simp

theorem getFlag_setFlag_mono {pr : Bool × Bool} {c c' : Nat}
    (h : getFlag pr c' = true) : getFlag (setFlag pr c) c' = true := by
  rw [getFlag_setFlag]
  by_cases hc : (c' = 0) = (c = 0) <;> simp [hc, h]

theorem getFlag_setFlag_rev {pr : Bool × Bool} {c c' : Nat}
    (hc : c < 2) (hc' : c' < 2)
    (h : getFlag (setFlag pr c) c' = true) :
    getFlag pr c' = true ∨ c' = c := by
  rw [getFlag_setFlag] at h
  by_cases he : (c' = 0) = (c = 0)
  · right
    interval_cases c <;> interval_cases c' <;> simp_all
  · left; simpa [he] using h

/-- `flagOn` after `visited.set v (setFlag pr c)`, the only kind of write the
algorithm performs on the visited matrix. -/
theorem flagOn_set {visited : List (Bool × Bool)} {v : Nat} {pr : Bool × Bool}
    (h : visited[v]? = some pr) (c : Nat) (v' c' : Nat) :
    flagOn (visited.set v (setFlag pr c)) v' c' =
      if v' = v then getFlag (setFlag pr c) c' else flagOn visited v' c' := by
  by_cases hv : v' = v
  · subst hv
    have hlen : v' < visited.length := (List.getElem?_eq_some.mp h).1
    have : (visited.set v' (setFlag pr c))[v']? = some (setFlag pr c) :=
      List.getElem?_set_eq_of_lt _ hlen
    rw [flagOn_eq_of_get? this]; simp
  · have : (visited.set v (setFlag pr c))[v']? = visited[v']? :=
      List.getElem?_set_ne (fun hh => hv hh.symm)
    simp only [hv, if_false]
    unfold flagOn
    rw [List.getD_eq_getElem?_getD, List.getD_eq_getElem?_getD, this]

theorem flagOn_set_mono {visited : List (Bool × Bool)} {v : Nat}
    {pr : Bool × Bool} (h : visited[v]? = some pr) (c : Nat) {v' c' : Nat}
    (hf : flagOn visited v' c' = true) :
    flagOn (visited.set v (setFlag pr c)) v' c' = true := by
  rw [flagOn_set h]
  by_cases hv : v' = v
  · subst hv
    rw [flagOn_eq_of_get? h] at hf
    simp [getFlag_setFlag_mono hf]
  · simp [hv, hf]

/-! ### Counting unvisited (node, color) states -/

theorem rowWeight_setFlag {pr : Bool × Bool} {c : Nat}
    (h : getFlag pr c = false) :
    rowWeight (setFlag pr c) + 1 = rowWeight pr := by
  rcases pr with ⟨a, b⟩
  by_cases hc : c = 0 <;>
    cases a <;> cases b <;>
    simp [getFlag, hc] at h ⊢ <;>
    simp [rowWeight, setFlag, hc]

theorem unvisited_set {visited : List (Bool × Bool)} {v : Nat}
    {pr : Bool × Bool} (h : visited[v]? = some pr) {c : Nat}
    (hf : getFlag pr c = false) :
    unvisited (visited.set v (setFlag pr c)) + 1 = unvisited visited := by
  induction visited generalizing v with
  | nil => simp at h
  | cons hd tl ih =>
    cases v with
    | zero =>
      simp at h
      subst h
      unfold unvisited
      simp [List.set]
      have := rowWeight_setFlag hf
      omega
    | succ w =>
      simp at h
      have := ih h
      unfold unvisited at this ⊢
      simp [List.set] at this ⊢
      omega

/-! ### Lemmas about the specification predicates -/

theorem edgeIn_color_lt {red blue : EdgeList} {u v c : Nat}
    (h : edgeIn red blue u v c) : c < 2 := by
  rcases h with ⟨hc, _⟩ | ⟨hc, _⟩ <;> omega

theorem AltReach_color_lt {red blue : EdgeList} {v c d : Nat}
    (h : AltReach red blue v c d) : c < 2 := by
  cases h with
  | start _ hc => exact hc
  | step _ he _ => exact edgeIn_color_lt he

theorem AltReach_zero {red blue : EdgeList} {v c : Nat}
    (h : AltReach red blue v c 0) : v = 0 := by
  cases h; rfl

theorem AltReach_succ {red blue : EdgeList} {v c d : Nat}
    (h : AltReach red blue v c (d + 1)) :
    ∃ u p, AltReach red blue u p d ∧ edgeIn red blue u v c ∧ c ≠ p := by
  cases h with
  | step hr he hne => exact ⟨_, _, hr, he, hne⟩

theorem AltReach_node_lt {n : Nat} {red blue : EdgeList} {v c d : Nat}
    (hn : 1 ≤ n) (hr : ValidEdges n red) (hb : ValidEdges n blue)
    (h : AltReach red blue v c d) : v < n := by
  induction h with
  | start => omega
  | step _ he _ _ =>
    rcases he with ⟨_, hm⟩ | ⟨_, hm⟩
    · have := (hr _ hm).2.2.2
      simp at this
      exact_mod_cast this
    · have := (hb _ hm).2.2.2
      simp at this
      exact_mod_cast this

theorem MinSD_unique {red blue : EdgeList} {v c d1 d2 : Nat}
    (h1 : MinSD red blue v c d1) (h2 : MinSD red blue v c d2) : d1 = d2 :=
  Nat.le_antisymm (h1.2 _ h2.1) (h2.2 _ h1.1)

theorem exists_minSD {red blue : EdgeList} {v c d : Nat}
    (h : AltReach red blue v c d) :
    ∃ dm, MinSD red blue v c dm ∧ dm ≤ d := by
  classical
  have hex : ∃ d2, AltReach red blue v c d2 := ⟨d, h⟩
  exact ⟨Nat.find hex, ⟨Nat.find_spec hex, fun d2 h2 => Nat.find_min' hex h2⟩,
    Nat.find_min' hex h⟩

theorem MinNodeDist_unique {red blue : EdgeList} {v d1 d2 : Nat}
    (h1 : MinNodeDist red blue v d1) (h2 : MinNodeDist red blue v d2) :
    d1 = d2 :=
  Nat.le_antisymm (h1.2 _ h2.1) (h2.2 _ h1.1)

theorem exists_minNodeDist {red blue : EdgeList} {v c d : Nat}
    (h : AltReach red blue v c d) :
    ∃ dm, MinNodeDist red blue v dm ∧ dm ≤ d := by
  classical
  have hex : ∃ d2, ∃ c2, AltReach red blue v c2 d2 := ⟨d, c, h⟩
  exact ⟨Nat.find hex, ⟨Nat.find_spec hex, fun d2 h2 => Nat.find_min' hex h2⟩,
    Nat.find_min' hex ⟨c, h⟩⟩

/-- Node 0 is always at shortest distance 0 (the empty walk). -/
theorem minNodeDist_zero (red blue : EdgeList) : MinNodeDist red blue 0 0 :=
  ⟨⟨0, AltReach.start 0 (by omega)⟩, fun _ _ => Nat.zero_le _⟩

/-! ### Characterisation of the adjacency list -/

theorem buildAdj_spec {n c : Nat} (es : EdgeList) :
    ∀ (adj : List (List (Int × Nat))),
      adj.length = n → (∀ e ∈ es, 0 ≤ e.1 ∧ e.1 < (n : Int)) →
      ∃ adj', buildAdj adj es c = some adj' ∧ adj'.length = n ∧
        ∀ u : Nat, adj'[u]? =
          adj[u]?.map (fun row =>
            row ++ (es.filter (fun e => e.1 = (u : Int))).map
              (fun e => (e.2, c))) := by
  induction es with
  | nil =>
    intro adj hlen _
    exact ⟨adj, rfl, hlen, fun u => by simp [buildAdj]⟩
  | cons e rest ih =>
    intro adj hlen hes
    have he := hes e (by simp)
    have h1 : e.1.toNat < adj.length := by omega
    obtain ⟨row, hrow⟩ : ∃ row, adj[e.1.toNat]? = some row :=
      ⟨adj.get ⟨e.1.toNat, h1⟩, (List.getElem?_eq_some).mpr ⟨h1, rfl⟩⟩
    have hpush : pushEdge adj e c = some (adj.set e.1.toNat (row ++ [(e.2, c)])) := by
      unfold pushEdge vecGet vecSet
      simp [he.1, hrow, h1]
    obtain ⟨adj', hbuild, hlen', hcontent⟩ :=
      ih (adj.set e.1.toNat (row ++ [(e.2, c)]))
        (by simp [hlen]) (fun e2 he2 => hes e2 (by simp [he2]))
    refine ⟨adj', ?_, hlen', fun u => ?_⟩
    · unfold buildAdj
      rw [hpush]
      exact hbuild
    · rw [hcontent u]
      by_cases hu : e.1.toNat = u
      · subst hu
        have heu : e.1 = (e.1.toNat : Int) := by omega
        rw [List.getElem?_set_eq_of_lt _ h1, hrow]
        simp only [Option.map_some']
        have hfilter :
            (e :: rest).filter (fun e2 => decide (e2.1 = ((e.1.toNat : Nat) : Int)))
              = e :: rest.filter (fun e2 => decide (e2.1 = ((e.1.toNat : Nat) : Int))) := by
          rw [List.filter_cons_of_pos (by simp only [decide_eq_true_eq]; omega)]
        rw [hfilter]
        simp
      · rw [List.getElem?_set_ne hu]
        have hne : ¬ (e.1 = (u : Int)) := by omega
        congr 1
        funext r
        rw [List.filter_cons_of_neg (by simp [hne])]

theorem mkAdj_spec {n : Nat} {red blue : EdgeList}
    (hr : ValidEdges n red) (hb : ValidEdges n blue) :
    ∃ adj, mkAdj n red blue = some adj ∧ adj.length = n ∧
      ∀ u : Nat, u < n → adj[u]? = some (adjRow red blue u) := by
  obtain ⟨adj1, h1, hlen1, hc1⟩ :=
    buildAdj_spec (c := 0) red (List.replicate n [])
      (by simp) (fun e he => ⟨(hr e he).1, (hr e he).2.1⟩)
  obtain ⟨adj2, h2, hlen2, hc2⟩ :=
    buildAdj_spec (c := 1) blue adj1 hlen1
      (fun e he => ⟨(hb e he).1, (hb e he).2.1⟩)
  refine ⟨adj2, ?_, hlen2, fun u hu => ?_⟩
  · unfold mkAdj
    rw [h1]
    exact h2
  · rw [hc2 u, hc1 u]
    simp [List.getElem?_replicate, hu, adjRow]

/-- Membership in an adjacency row built from valid edge lists is exactly the
colored-edge relation, with in-range targets. -/
theorem adjRow_mem {n : Nat} {red blue : EdgeList}
    (hr : ValidEdges n red) (hb : ValidEdges n blue) {u : Nat} {x : Int × Nat} :
    x ∈ adjRow red blue u ↔
      ∃ vn : Nat, x.1 = (vn : Int) ∧ vn < n ∧ edgeIn red blue u vn x.2 := by
  unfold adjRow
  rw [List.mem_append]
  constructor
  · rintro (hm | hm) <;>
    · rw [List.mem_map] at hm
      obtain ⟨e, he, hx⟩ := hm
      rw [List.mem_filter] at he
      obtain ⟨hmem, hfst⟩ := he
      have hfst' : e.1 = (u : Int) := by simpa using hfst
      first
      | (have hv := hr e hmem; refine ⟨e.2.toNat, ?_, ?_, ?_⟩)
      | (have hv := hb e hmem; refine ⟨e.2.toNat, ?_, ?_, ?_⟩)
      · rw [← hx]; omega
      · omega
      · rw [← hx]
        first
        | refine Or.inl ⟨rfl, ?_⟩
        | refine Or.inr ⟨rfl, ?_⟩
        have : ((u : Int), ((e.2.toNat : Nat) : Int)) = e := by
          rcases e with ⟨e1, e2⟩
          simp at hfst' ⊢
          constructor
          · omega
          · omega
        rw [this]
        exact hmem
  · rintro ⟨vn, hx1, hvn, hedge⟩
    rcases hedge with ⟨hc, hmem⟩ | ⟨hc, hmem⟩
    · left
      rw [List.mem_map]
      refine ⟨((u : Int), (vn : Int)), ?_, ?_⟩
      · rw [List.mem_filter]
        exact ⟨hmem, by simp⟩
      · rcases x with ⟨x1, x2⟩
        simp at hx1 hc ⊢
        exact ⟨hx1.symm, hc.symm⟩
    · right
      rw [List.mem_map]
      refine ⟨((u : Int), (vn : Int)), ?_, ?_⟩
      · rw [List.mem_filter]
        exact ⟨hmem, by simp⟩
      · rcases x with ⟨x1, x2⟩
        simp at hx1 hc ⊢
        exact ⟨hx1.symm, hc.symm⟩

theorem getD_of_getElem? {α : Type} {l : List α} {v : Nat} {x : α} (d : α)
    (h : l[v]? = some x) : l.getD v d = x := by
  rw [List.getD_eq_getElem?_getD, h]
  rfl

theorem exists_getElem? {α : Type} {l : List α} {v : Nat} (h : v < l.length) :
    ∃ x, l[v]? = some x :=
  ⟨l.get ⟨v, h⟩, (List.getElem?_eq_some).mpr ⟨h, rfl⟩⟩

theorem getD_set_self {α : Type} {l : List α} {v : Nat} (x d : α)
    (h : v < l.length) : (l.set v x).getD v d = x := by
  rw [List.getD_eq_getElem?_getD, List.getElem?_set_eq_of_lt _ h]
  rfl

theorem getD_set_ne {α : Type} {l : List α} {v v' : Nat} (x d : α)
    (h : v' ≠ v) : (l.set v x).getD v' d = l.getD v' d := by
  rw [List.getD_eq_getElem?_getD, List.getD_eq_getElem?_getD,
    List.getElem?_set_ne (fun hh => h hh.symm)]

/-! ### Preservation and consequences of the BFS invariant -/

/-- When every visited state is fully expanded (as is the case once the queue
has drained), every reachable state is visited. -/
theorem all_flagged_of_closed {red blue : EdgeList}
    {visited : List (Bool × Bool)}
    (hzero0 : flagOn visited 0 0 = true) (hzero1 : flagOn visited 0 1 = true)
    (hclosed : ∀ v c, c < 2 → flagOn visited v c = true →
      SuccClosed red blue visited v c)
    {v c dd : Nat} (h : AltReach red blue v c dd) :
    flagOn visited v c = true := by
  induction dd using Nat.strong_induction_on generalizing v c with
  | _ dd ih =>
    cases dd with
    | zero =>
      have hv := AltReach_zero h
      have hc := AltReach_color_lt h
      subst hv
      interval_cases c
      · exact hzero0
      · exact hzero1
    | succ e =>
      obtain ⟨w, p2, hw, hedge, hne⟩ := AltReach_succ h
      obtain ⟨e', hmin, hle⟩ := exists_minSD hw
      have hwflag : flagOn visited w p2 = true :=
        ih e' (by omega) hmin.1
      exact hclosed w p2 (AltReach_color_lt hw) hwflag v c hedge hne

/-- At the moment the head of the queue is popped, every state whose exact BFS
distance is at most the head's distance is already visited. -/
theorem flag_of_minsd_le_front {n : Nat} {red blue : EdgeList} {s : BfsState}
    (inv : Inv n red blue s) {x : Int × Int × Nat} {rest : List (Int × Int × Nat)}
    (hq : s.q = x :: rest) {v c dd : Nat} (hmin : MinSD red blue v c dd)
    (hle : (dd : Int) ≤ x.2.1) : flagOn s.visited v c = true := by
  induction dd using Nat.strong_induction_on generalizing v c with
  | _ dd ih =>
    rcases lt_or_eq_of_le hle with hlt | heq
    · refine inv.discovered v c dd hmin ?_
      intro y hy
      rw [hq] at hy
      simp at hy
      subst hy
      exact hlt
    · cases dd with
      | zero =>
        have hv := AltReach_zero hmin.1
        have hc := AltReach_color_lt hmin.1
        subst hv
        interval_cases c
        · exact inv.zeroFlag0
        · exact inv.zeroFlag1
      | succ e =>
        obtain ⟨w, p2, hw, hedge, hne⟩ := AltReach_succ hmin.1
        obtain ⟨e', hmin', hle'⟩ := exists_minSD hw
        have hwflag : flagOn s.visited w p2 = true := by
          refine ih e' (by omega) hmin' ?_
          have : (e' : Int) < (e + 1 : Nat) := by
            push_cast
            omega
          omega
        have hcov := inv.flagCover w p2 (AltReach_color_lt hw) hwflag
        rcases hcov with ⟨y, hy, hy1, hy2⟩ | hclosed
        · exfalso
          obtain ⟨wn, dy, hyn, hyd, _, _, hymin, _⟩ := inv.entries y hy
          have hwn : wn = w := by
            rw [hy1] at hyn
            exact_mod_cast hyn.symm
          subst hwn
          rw [hy2] at hymin
          have : dy = e' := MinSD_unique hymin hmin'
          subst this
          have hfront : x.2.1 ≤ y.2.1 := by
            rw [hq] at hy
            rcases List.mem_cons.mp hy with rfl | hy'
            · exact le_rfl
            · have hsorted := inv.sorted
              rw [hq] at hsorted
              exact (List.pairwise_cons.mp hsorted).1 y hy'
          rw [hyd] at hfront
          omega
        · exact hclosed v c hedge hne

/-! ### Unfolding equations for the inner edge loop

One small equation per control-flow shape of `processEdges` (and of the
no-min variant), so that each proof step rewrites with a compact lemma. -/

theorem processEdges_cons_same {nb : Int} {p : Nat} {d : Int}
    {rest : List (Int × Nat)} {s : BfsState} :
    processEdges ((nb, p) :: rest) p d s = processEdges rest p d s := by
  simp only [processEdges]
  rw [if_neg (by simp)]

theorem processEdges_cons_noRow {nb : Int} {ec p : Nat} {d : Int}
    {rest : List (Int × Nat)} {s : BfsState}
    (hep : ¬ ec = p) (hget : vecGet s.visited nb = none) :
    processEdges ((nb, ec) :: rest) p d s = none := by
  simp only [processEdges, if_pos hep, hget]

theorem processEdges_cons_visited {nb : Int} {ec p : Nat} {d : Int}
    {rest : List (Int × Nat)} {s : BfsState} {flags : Bool × Bool}
    (hep : ¬ ec = p) (hget : vecGet s.visited nb = some flags)
    (hflag : getFlag flags ec = true) :
    processEdges ((nb, ec) :: rest) p d s = processEdges rest p d s := by
  simp only [processEdges, if_pos hep, hget, hflag]
  rw [if_pos trivial]

theorem processEdges_cons_overflow {nb : Int} {ec p : Nat} {d : Int}
    {rest : List (Int × Nat)} {s : BfsState} {flags : Bool × Bool}
    {visited2 : List (Bool × Bool)}
    (hep : ¬ ec = p) (hget : vecGet s.visited nb = some flags)
    (hflag : getFlag flags ec = false)
    (hset1 : vecSet s.visited nb (setFlag flags ec) = some visited2)
    (hadd : intAdd1 d = none) :
    processEdges ((nb, ec) :: rest) p d s = none := by
  simp only [processEdges, if_pos hep, hget, hflag, hset1, hadd]
  rfl

theorem processEdges_cons_noDist {nb : Int} {ec p : Nat} {d nd : Int}
    {rest : List (Int × Nat)} {s : BfsState} {flags : Bool × Bool}
    {visited2 : List (Bool × Bool)}
    (hep : ¬ ec = p) (hget : vecGet s.visited nb = some flags)
    (hflag : getFlag flags ec = false)
    (hset1 : vecSet s.visited nb (setFlag flags ec) = some visited2)
    (hadd : intAdd1 d = some nd)
    (hdget : vecGet s.dist nb = none) :
    processEdges ((nb, ec) :: rest) p d s = none := by
  simp only [processEdges, if_pos hep, hget, hflag, hset1, hadd, hdget]
  rfl

theorem processEdges_cons_new {nb : Int} {ec p : Nat} {d nd : Int}
    {rest : List (Int × Nat)} {s : BfsState} {flags : Bool × Bool}
    {visited2 : List (Bool × Bool)} {dv : Int} {dist2 : List Int}
    (hep : ¬ ec = p) (hget : vecGet s.visited nb = some flags)
    (hflag : getFlag flags ec = false)
    (hset1 : vecSet s.visited nb (setFlag flags ec) = some visited2)
    (hadd : intAdd1 d = some nd)
    (hdget : vecGet s.dist nb = some dv)
    (hset2 : vecSet s.dist nb (min dv nd) = some dist2) :
    processEdges ((nb, ec) :: rest) p d s =
      processEdges rest p d
        { dist := dist2, visited := visited2,
          q := s.q ++ [(nb, nd, ec)] } := by
  simp only [processEdges, if_pos hep, hget, hflag, hset1, hadd, hdget, hset2]
  rfl

theorem processEdgesNoMin_cons_same {nb : Int} {p : Nat} {d : Int}
    {rest : List (Int × Nat)} {s : BfsState} :
    processEdgesNoMin ((nb, p) :: rest) p d s =
      processEdgesNoMin rest p d s := by
  simp only [processEdgesNoMin]
  rw [if_neg (by simp)]

theorem processEdgesNoMin_cons_noRow {nb : Int} {ec p : Nat} {d : Int}
    {rest : List (Int × Nat)} {s : BfsState}
    (hep : ¬ ec = p) (hget : vecGet s.visited nb = none) :
    processEdgesNoMin ((nb, ec) :: rest) p d s = none := by
  simp only [processEdgesNoMin, if_pos hep, hget]

theorem processEdgesNoMin_cons_visited {nb : Int} {ec p : Nat} {d : Int}
    {rest : List (Int × Nat)} {s : BfsState} {flags : Bool × Bool}
    (hep : ¬ ec = p) (hget : vecGet s.visited nb = some flags)
    (hflag : getFlag flags ec = true) :
    processEdgesNoMin ((nb, ec) :: rest) p d s =
      processEdgesNoMin rest p d s := by
  simp only [processEdgesNoMin, if_pos hep, hget, hflag]
  rw [if_pos trivial]

theorem processEdgesNoMin_cons_overflow {nb : Int} {ec p : Nat} {d : Int}
    {rest : List (Int × Nat)} {s : BfsState} {flags : Bool × Bool}
    {visited2 : List (Bool × Bool)}
    (hep : ¬ ec = p) (hget : vecGet s.visited nb = some flags)
    (hflag : getFlag flags ec = false)
    (hset1 : vecSet s.visited nb (setFlag flags ec) = some visited2)
    (hadd : intAdd1 d = none) :
    processEdgesNoMin ((nb, ec) :: rest) p d s = none := by
  simp only [processEdgesNoMin, if_pos hep, hget, hflag, hset1, hadd]
  rfl

theorem processEdgesNoMin_cons_noDist {nb : Int} {ec p : Nat} {d nd : Int}
    {rest : List (Int × Nat)} {s : BfsState} {flags : Bool × Bool}
    {visited2 : List (Bool × Bool)}
    (hep : ¬ ec = p) (hget : vecGet s.visited nb = some flags)
    (hflag : getFlag flags ec = false)
    (hset1 : vecSet s.visited nb (setFlag flags ec) = some visited2)
    (hadd : intAdd1 d = some nd)
    (hdget : vecGet s.dist nb = none) :
    processEdgesNoMin ((nb, ec) :: rest) p d s = none := by
  simp only [processEdgesNoMin, if_pos hep, hget, hflag, hset1, hadd, hdget]
  rfl

theorem processEdgesNoMin_cons_new {nb : Int} {ec p : Nat} {d nd : Int}
    {rest : List (Int × Nat)} {s : BfsState} {flags : Bool × Bool}
    {visited2 : List (Bool × Bool)} {dv : Int} {dist2 : List Int}
    (hep : ¬ ec = p) (hget : vecGet s.visited nb = some flags)
    (hflag : getFlag flags ec = false)
    (hset1 : vecSet s.visited nb (setFlag flags ec) = some visited2)
    (hadd : intAdd1 d = some nd)
    (hdget : vecGet s.dist nb = some dv)
    (hset2 : vecSet s.dist nb nd = some dist2) :
    processEdgesNoMin ((nb, ec) :: rest) p d s =
      processEdgesNoMin rest p d
        { dist := dist2, visited := visited2,
          q := s.q ++ [(nb, nd, ec)] } := by
  simp only [processEdgesNoMin, if_pos hep, hget, hflag, hset1, hadd, hdget,
    hset2]
  rfl

theorem processEdges_spec {n : Nat} {red blue : EdgeList} {u p dpop : Nat}
    {E : List (Int × Nat)} :
    ∀ {s : BfsState}, Mid n red blue u p dpop s →
      (∀ x ∈ E, ∃ vn : Nat, x.1 = (vn : Int) ∧ vn < n ∧
        edgeIn red blue u vn x.2) →
      (processEdges E p (dpop : Int) s = none ∧
        ∃ v c d, MinSD red blue v c d ∧ INT_MAX < (d : Int)) ∨
      ∃ s', processEdges E p (dpop : Int) s = some s' ∧
        MidOut n red blue u p dpop s s' ∧
        ∀ x ∈ E, ∀ vn : Nat, x.1 = (vn : Int) → x.2 ≠ p →
          flagOn s'.visited vn x.2 = true := by
  induction E with
  | nil =>
    intro s hmid _
    exact Or.inr ⟨s, rfl, ⟨hmid, fun _ _ h => h, ⟨[], by simp, by simp⟩, rfl⟩,
      by simp⟩
  | cons x rest ih =>
    obtain ⟨nb, ec⟩ := x
    intro s hmid hE
    obtain ⟨vn, hx1, hvn, hedge⟩ := hE (nb, ec) (by simp)
    simp only at hx1 hedge
    by_cases hep : ec = p
    · -- same-colored edge: skipped
      rcases ih hmid (fun y hy => hE y (by simp [hy])) with
        ⟨hrun, hwit⟩ | ⟨s', hrun, hout, hrest⟩
      · refine Or.inl ⟨?_, hwit⟩
        rw [hep, processEdges_cons_same]
        exact hrun
      · refine Or.inr ⟨s', ?_, hout, ?_⟩
        · rw [hep, processEdges_cons_same]
          exact hrun
        · intro y hy wn hw1 hw2
          rcases List.mem_cons.mp hy with rfl | hy'
          · exact absurd hep hw2
          · exact hrest y hy' wn hw1 hw2
    · -- alternating edge
      have hvnvis : vn < s.visited.length := by rw [hmid.visLen]; exact hvn
      obtain ⟨flags, hvget⟩ := exists_getElem? hvnvis
      have hvgetI : vecGet s.visited nb = some flags := by
        rw [hx1, vecGet_natCast]
        exact hvget
      have hflagOn_eq : flagOn s.visited vn ec = getFlag flags ec :=
        flagOn_eq_of_get? hvget ec
      by_cases hflag : getFlag flags ec = true
      · -- state already visited: skipped
        rcases ih hmid (fun y hy => hE y (by simp [hy])) with
          ⟨hrun, hwit⟩ | ⟨s', hrun, hout, hrest⟩
        · refine Or.inl ⟨?_, hwit⟩
          rw [processEdges_cons_visited hep hvgetI hflag]
          exact hrun
        · refine Or.inr ⟨s', ?_, hout, ?_⟩
          · rw [processEdges_cons_visited hep hvgetI hflag]
            exact hrun
          · intro y hy wn hw1 hw2
            rcases List.mem_cons.mp hy with rfl | hy'
            · simp only at hw1 hw2
              have hwn : wn = vn := by
                rw [hw1] at hx1
                exact_mod_cast hx1
              subst hwn
              exact hout.mono _ _ (by rw [hflagOn_eq]; exact hflag)
            · exact hrest y hy' wn hw1 hw2
      · -- first visit of (vn, ec)
        have hflagF : getFlag flags ec = false := by
          revert hflag
          cases getFlag flags ec <;> simp
        have hecolor : ec < 2 := edgeIn_color_lt (c := ec) (Or.imp id id hedge)
        have hset1 : vecSet s.visited nb (setFlag flags ec) =
            some (s.visited.set vn (setFlag flags ec)) := by
          rw [hx1]
          exact vecSet_isSome _ _ _ hvnvis
        -- the newly visited state is at exact BFS distance dpop + 1
        have key : MinSD red blue vn ec (dpop + 1) := by
          constructor
          · exact AltReach.step hmid.popped.1 hedge hep
          · intro d2 h2
            by_contra hlt
            obtain ⟨dm, hdm, hdmle⟩ := exists_minSD h2
            have : flagOn s.visited vn ec = true :=
              hmid.belowFlag vn ec dm hdm (by omega)
            rw [hflagOn_eq, hflagF] at this
            exact Bool.false_ne_true this
        by_cases hov : (dpop : Int) + 1 ≤ INT_MAX
        case neg =>
          -- `currentDistance + 1` overflows: the state first visited here
          -- would lie at exact distance beyond INT_MAX
          have hadd : intAdd1 (dpop : Int) = none := by
            unfold intAdd1
            rw [if_neg (fun h => hov h.2)]
          refine Or.inl ⟨?_, vn, ec, dpop + 1, key, by push_cast; omega⟩
          exact processEdges_cons_overflow hep hvgetI hflagF hset1 hadd
        case pos =>
          have hadd : intAdd1 (dpop : Int) = some ((dpop : Int) + 1) := by
            unfold intAdd1
            rw [if_pos ⟨by omega, hov⟩]
          have hvndist : vn < s.dist.length := by rw [hmid.distLen]; exact hvn
          obtain ⟨dv, hdget⟩ := exists_getElem? hvndist
          have hdgetI : vecGet s.dist nb = some dv := by
            rw [hx1, vecGet_natCast]
            exact hdget
          have hset2 : vecSet s.dist nb (min dv ((dpop : Int) + 1)) =
              some (s.dist.set vn (min dv ((dpop : Int) + 1))) := by
            rw [hx1]
            exact vecSet_isSome _ _ _ hvndist
          set s1 : BfsState :=
            { dist := s.dist.set vn (min dv ((dpop : Int) + 1)),
              visited := s.visited.set vn (setFlag flags ec),
              q := s.q ++ [(nb, (dpop : Int) + 1, ec)] } with hs1
          have hfext : ∀ v c, flagOn s1.visited v c =
            if v = vn then getFlag (setFlag flags ec) c
            else flagOn s.visited v c := fun v c => flagOn_set hvget ec v c
          have hmono1 : ∀ v c, flagOn s.visited v c = true →
              flagOn s1.visited v c = true := fun v c h =>
            flagOn_set_mono hvget ec h
          have hself : flagOn s1.visited vn ec = true := by
            rw [hfext]
            simp [getFlag_setFlag_self]
          have hrev : ∀ v c, c < 2 → flagOn s1.visited v c = true →
              flagOn s.visited v c = true ∨ (v = vn ∧ c = ec) := by
            intro v c hc2 h
            rw [hfext] at h
            by_cases hv : v = vn
            · rw [if_pos hv] at h
              rcases getFlag_setFlag_rev hecolor hc2 h with h' | h'
              · left
                rw [hv, flagOn_eq_of_get? hvget]
                exact h'
              · right
                exact ⟨hv, h'⟩
            · left
              rwa [if_neg hv] at h
          have hcast : ((dpop : Int) + 1) = (((dpop + 1 : Nat)) : Int) := by
            push_cast
            ring
          have hmid1 : Mid n red blue u p dpop s1 := by
            refine ⟨?_, ?_, ?_, ?_, ?_, ?_, ?_, ?_, hmid.popped, hmid.pColor,
              hmid.uLt, ?_, ?_, ?_, ?_⟩
            · simp [hs1, hmid.distLen]
            · simp [hs1, hmid.visLen]
            · exact hmono1 _ _ hmid.zeroFlag0
            · exact hmono1 _ _ hmid.zeroFlag1
            · intro y hy
              rcases List.mem_append.mp hy with hy' | hy'
              · obtain ⟨wn, dd, h1, h2, h3, h4, h5, h6⟩ := hmid.entries y hy'
                exact ⟨wn, dd, h1, h2, h3, h4, h5, hmono1 _ _ h6⟩
              · rcases List.mem_singleton.mp hy' with rfl
                exact ⟨vn, dpop + 1, hx1, by simpa using hcast, hvn, hecolor,
                  key, hself⟩
            · rw [List.pairwise_append]
              refine ⟨hmid.sorted, by simp, ?_⟩
              intro a ha b hb
              rcases List.mem_singleton.mp hb with rfl
              exact hmid.upper a ha
            · intro y hy
              rcases List.mem_append.mp hy with hy' | hy'
              · exact hmid.lower y hy'
              · rcases List.mem_singleton.mp hy' with rfl
                simp
            · intro y hy
              rcases List.mem_append.mp hy with hy' | hy'
              · exact hmid.upper y hy'
              · rcases List.mem_singleton.mp hy' with rfl
                simp
            · -- flagCoverMid
              intro w cw hc2 hflag1
              rcases hrev w cw hc2 hflag1 with hold | ⟨hveq, hceq⟩
              · rcases hmid.flagCoverMid w cw hc2 hold with ⟨y, hy, hy1, hy2⟩ | hup
                · exact Or.inl ⟨y, List.mem_append_left _ hy, hy1, hy2⟩
                · rcases hup with hup | hclosed
                  · exact Or.inr (Or.inl hup)
                  · refine Or.inr (Or.inr ?_)
                    intro v2 c2 he2 hne2
                    exact hmono1 _ _ (hclosed v2 c2 he2 hne2)
              · refine Or.inl ⟨(nb, (dpop : Int) + 1, ec),
                  List.mem_append_right _ (by simp), ?_, ?_⟩
                · rw [hveq]
                  exact hx1
                · exact hceq.symm
            · -- belowFlag
              intro v c dd hm hle
              exact hmono1 _ _ (hmid.belowFlag v c dd hm hle)
            · -- distOk
              intro v hv
              by_cases hveq : v = vn
              · subst hveq
                have hnewd : s1.dist.getD v 0 = min dv ((dpop : Int) + 1) :=
                  getD_set_self _ _ hvndist
                have holdd : s.dist.getD v 0 = dv := getD_of_getElem? 0 hdget
                rcases hmid.distOk v hv with ⟨h1, h2⟩ | ⟨dm0, h1, ⟨c0, hc0f, hc0m⟩, h3⟩
                · -- previously unvisited node
                  refine Or.inr ⟨dpop + 1, ?_, ⟨ec, hself, key⟩, ?_⟩
                  · rw [hnewd]
                    have hdv : dv = INT_MAX := by rw [← holdd, h1]
                    rw [hdv, ← hcast]
                  · intro c d2 hcf hcm
                    have hc2 : c < 2 := AltReach_color_lt hcm.1
                    rcases hrev v c hc2 hcf with hold | ⟨_, rfl⟩
                    · rw [h2 c] at hold
                      exact absurd hold (by simp)
                    · rw [MinSD_unique key hcm]
                · -- node already had a visited state at distance dm0
                  refine Or.inr ⟨min dm0 (dpop + 1), ?_, ?_, ?_⟩
                  · rw [hnewd]
                    have hdv : dv = min INT_MAX (dm0 : Int) := by
                      rw [← holdd, h1]
                    rw [hdv, min_assoc]
                    have hmm : min (dm0 : Int) ((dpop : Int) + 1) =
                        ((min dm0 (dpop + 1) : Nat) : Int) := by
                      push_cast
                      rfl
                    rw [hmm]
                  · rcases le_total dm0 (dpop + 1) with hmin | hmin
                    · exact ⟨c0, hmono1 _ _ hc0f, by rwa [min_eq_left hmin]⟩
                    · exact ⟨ec, hself, by rwa [min_eq_right hmin]⟩
                  · intro c d2 hcf hcm
                    have hc2 : c < 2 := AltReach_color_lt hcm.1
                    rcases hrev v c hc2 hcf with hold | ⟨_, rfl⟩
                    · have := h3 c d2 hold hcm
                      omega
                    · rw [← MinSD_unique key hcm]
                      omega
              · have hgf : ∀ c, flagOn s1.visited v c = flagOn s.visited v c := by
                  intro c
                  rw [hfext]
                  simp [hveq]
                have hgd : s1.dist.getD v 0 = s.dist.getD v 0 :=
                  getD_set_ne _ _ hveq
                rcases hmid.distOk v hv with ⟨h1, h2⟩ | ⟨dm0, h1, ⟨c0, hc0f, hc0m⟩, h3⟩
                · exact Or.inl ⟨by rw [hgd]; exact h1, fun c => by
                    rw [hgf]; exact h2 c⟩
                · exact Or.inr ⟨dm0, by rw [hgd]; exact h1,
                    ⟨c0, by rw [hgf]; exact hc0f, hc0m⟩,
                    fun c d2 hcf hcm => h3 c d2 (by rwa [hgf] at hcf) hcm⟩
            · -- flagDist
              intro w cw dd hflag1 hm
              rcases hrev w cw (AltReach_color_lt hm.1) hflag1 with
                hold | ⟨hveq, hceq⟩
              · exact hmid.flagDist w cw dd hold hm
              · subst hveq
                subst hceq
                have hdd := MinSD_unique hm key
                rw [hdd]
                exact_mod_cast hov
          have hmeasure1 : s1.q.length + unvisited s1.visited =
              s.q.length + unvisited s.visited := by
            have := unvisited_set hvget hflagF
            simp only [hs1]
            rw [List.length_append]
            simp only [List.length_singleton]
            omega
          rcases ih hmid1 (fun y hy => hE y (by simp [hy])) with
            ⟨hrun, hwit⟩ | ⟨s', hrun, hout, hrest⟩
          · refine Or.inl ⟨?_, hwit⟩
            rw [processEdges_cons_new hep hvgetI hflagF hset1 hadd hdgetI
              hset2]
            exact hrun
          · refine Or.inr ⟨s', ?_, ?_, ?_⟩
            · rw [processEdges_cons_new hep hvgetI hflagF hset1 hadd hdgetI
                hset2]
              exact hrun
            · refine ⟨hout.mid, ?_, ?_, ?_⟩
              · intro v c h
                exact hout.mono v c (hmono1 v c h)
              · obtain ⟨nw1, hnw1, hnwd⟩ := hout.qExt
                refine ⟨(nb, (dpop : Int) + 1, ec) :: nw1, ?_, ?_⟩
                · rw [hnw1]
                  simp [hs1]
                · intro y hy
                  rcases List.mem_cons.mp hy with rfl | hy'
                  · rfl
                  · exact hnwd y hy'
              · rw [hout.measure, hmeasure1]
            · intro y hy wn hw1 hw2
              rcases List.mem_cons.mp hy with rfl | hy'
              · simp only at hw1 hw2
                have hwn : wn = vn := by
                  rw [hw1] at hx1
                  exact_mod_cast hx1
                subst hwn
                exact hout.mono _ _ hself
              · exact hrest y hy' wn hw1 hw2

/-- The in-range target of a colored edge of a valid input. -/
theorem edgeIn_target_lt {n : Nat} {red blue : EdgeList} {u v c : Nat}
    (hr : ValidEdges n red) (hb : ValidEdges n blue)
    (h : edgeIn red blue u v c) : v < n := by
  rcases h with ⟨_, hm⟩ | ⟨_, hm⟩
  · have := (hr _ hm).2.2.2
    simp at this
    exact_mod_cast this
  · have := (hb _ hm).2.2.2
    simp at this
    exact_mod_cast this

/-- Running one loop iteration from a nonempty queue on a valid input either
hits signed overflow in `currentDistance + 1` (possible only when some state
lies at exact distance beyond `INT_MAX`), or maintains the invariant and
decreases (queue length + number of unvisited states) by exactly one. -/
theorem bfsStep_spec {n : Nat} {red blue : EdgeList}
    {adj : List (List (Int × Nat))}
    (hadj : ∀ u : Nat, u < n → adj[u]? = some (adjRow red blue u))
    (hr : ValidEdges n red) (hb : ValidEdges n blue)
    {s : BfsState} (inv : Inv n red blue s)
    {x : Int × Int × Nat} {rest : List (Int × Int × Nat)}
    (hq : s.q = x :: rest) :
    (bfsStep adj s = none ∧
      ∃ v c d, MinSD red blue v c d ∧ INT_MAX < (d : Int)) ∨
    ∃ s', bfsStep adj s = some s' ∧ Inv n red blue s' ∧
      s'.q.length + unvisited s'.visited + 1 =
        s.q.length + unvisited s.visited ∧
      rest.length ≤ s'.q.length := by
  obtain ⟨x1, x2, x3⟩ := x
  obtain ⟨u, dpop, hx1, hx2, hult, hx3, hxmin, hxflag⟩ :=
    inv.entries (x1, x2, x3) (by rw [hq]; simp)
  simp only at hx1 hx2 hx3 hxmin hxflag
  have hadjvget : vecGet adj x1 = some (adjRow red blue u) := by
    rw [hx1, vecGet_natCast]
    exact hadj u hult
  have hsortedTail := inv.sorted
  rw [hq] at hsortedTail
  have hmidStart : Mid n red blue u x3 dpop { s with q := rest } := by
    refine ⟨inv.distLen, inv.visLen, inv.zeroFlag0, inv.zeroFlag1, ?_, ?_, ?_,
      ?_, hxmin, hx3, hult, ?_, ?_, inv.distOk, inv.flagDist⟩
    · intro y hy
      exact inv.entries y (by rw [hq]; exact List.mem_cons_of_mem _ hy)
    · exact (List.pairwise_cons.mp hsortedTail).2
    · intro y hy
      have := (List.pairwise_cons.mp hsortedTail).1 y hy
      simp only at this
      rw [hx2] at this
      exact this
    · intro y hy
      have := inv.band y (by rw [hq]; exact List.mem_cons_of_mem _ hy)
        (x1, x2, x3) (by rw [hq]; simp)
      simp only at this
      rw [hx2] at this
      exact this
    · intro v c hc2 hf
      rcases inv.flagCover v c hc2 hf with ⟨y, hy, hy1, hy2⟩ | hclosed
      · rw [hq] at hy
        rcases List.mem_cons.mp hy with rfl | hy'
        · refine Or.inr (Or.inl ⟨?_, ?_⟩)
          · simp only at hy1
            rw [hx1] at hy1
            exact_mod_cast hy1.symm
          · exact hy2.symm
        · exact Or.inl ⟨y, hy', hy1, hy2⟩
      · exact Or.inr (Or.inr hclosed)
    · intro v c dd hm hle
      refine flag_of_minsd_le_front inv hq hm ?_
      simp only
      rw [hx2]
      exact_mod_cast hle
  have hEfacts : ∀ y ∈ adjRow red blue u, ∃ vn : Nat, y.1 = (vn : Int) ∧
      vn < n ∧ edgeIn red blue u vn y.2 := by
    intro y hy
    exact (adjRow_mem hr hb).mp hy
  rcases processEdges_spec hmidStart hEfacts with
    ⟨hrun, hwit⟩ | ⟨s', hrun, hout, hEflag⟩
  · refine Or.inl ⟨?_, hwit⟩
    simp only [bfsStep, hq, hadjvget]
    rw [← hrun, hx2]
  · have hstep : bfsStep adj s = some s' := by
      simp only [bfsStep, hq, hadjvget]
      rw [← hrun, hx2]
    have hmid' := hout.mid
    have hband' : ∀ a ∈ s'.q, ∀ b ∈ s'.q, a.2.1 ≤ b.2.1 + 1 := by
      intro a ha b hb
      have h1 := hmid'.upper a ha
      have h2 := hmid'.lower b hb
      omega
    have hcover' : ∀ v c, c < 2 → flagOn s'.visited v c = true →
        (∃ y ∈ s'.q, y.1 = (v : Int) ∧ y.2.2 = c) ∨
          SuccClosed red blue s'.visited v c := by
      intro v c hc2 hf
      rcases hmid'.flagCoverMid v c hc2 hf with hin | ⟨rfl, rfl⟩ | hclosed
      · exact Or.inl hin
      · refine Or.inr ?_
        intro v2 c2 he2 hne2
        have hv2 : v2 < n := edgeIn_target_lt hr hb he2
        have hmem : ((v2 : Int), c2) ∈ adjRow red blue v := by
          rw [adjRow_mem hr hb]
          exact ⟨v2, rfl, hv2, he2⟩
        exact hEflag _ hmem v2 rfl hne2
      · exact Or.inr hclosed
    refine Or.inr ⟨s', hstep, ?_, ?_, ?_⟩
    · refine ⟨hmid'.distLen, hmid'.visLen, hmid'.zeroFlag0, hmid'.zeroFlag1,
        hmid'.entries, hmid'.sorted, hband', hcover', ?_, hmid'.distOk,
        hmid'.flagDist⟩
      intro v c dd hm hcond
      cases hq' : s'.q with
      | nil =>
        refine all_flagged_of_closed hmid'.zeroFlag0 hmid'.zeroFlag1 ?_ hm.1
        intro w cw hcw2 hcwf
        rcases hcover' w cw hcw2 hcwf with ⟨y, hy, _⟩ | hclosed
        · rw [hq'] at hy
          simp at hy
        · exact hclosed
      | cons y tl =>
        have hlt := hcond y (by rw [hq']; rfl)
        have hup := hmid'.upper y (by rw [hq']; simp)
        refine hmid'.belowFlag v c dd hm ?_
        omega
    · have := hout.measure
      simp only at this
      rw [this, hq]
      simp only [List.length_cons]
      omega
    · obtain ⟨nw, hnw, _⟩ := hout.qExt
      simp only at hnw
      rw [hnw, List.length_append]
      omega

/-- The loop on a valid input: with fuel at least (queue length +
unvisited-state count + 1) the fuel is never exhausted, and either the run
aborts on signed overflow in `currentDistance + 1` (possible only when some
state lies at exact distance beyond `INT_MAX`), or the queue drains, the
invariant is preserved, and the instrumented push counter grows by exactly the
number of states newly marked visited. -/
theorem bfsLoopCount_spec {n : Nat} {red blue : EdgeList}
    {adj : List (List (Int × Nat))}
    (hadj : ∀ u : Nat, u < n → adj[u]? = some (adjRow red blue u))
    (hr : ValidEdges n red) (hb : ValidEdges n blue) :
    ∀ fuel s acc, Inv n red blue s →
      s.q.length + unvisited s.visited + 1 ≤ fuel →
      (bfsLoopCount adj fuel s acc = none ∧ bfsLoop adj fuel s = none ∧
        ∃ v c d, MinSD red blue v c d ∧ INT_MAX < (d : Int)) ∨
      ∃ sF k, bfsLoopCount adj fuel s acc = some (sF, k) ∧
        bfsLoop adj fuel s = some sF ∧ Inv n red blue sF ∧ sF.q = [] ∧
        acc + unvisited s.visited = k + unvisited sF.visited := by
  intro fuel
  induction fuel with
  | zero =>
    intro s acc _ h
    omega
  | succ f ih =>
    intro s acc inv hfuel
    cases hq : s.q with
    | nil =>
      refine Or.inr ⟨s, acc, ?_, ?_, inv, hq, rfl⟩
      · simp [bfsLoopCount, hq]
      · simp [bfsLoop, hq]
    | cons x rest =>
      rcases bfsStep_spec hadj hr hb inv hq with
        ⟨hstep, hwit⟩ | ⟨s2, hstep, inv2, hmeas, hlen2⟩
      · refine Or.inl ⟨?_, ?_, hwit⟩
        · simp [bfsLoopCount, hq, hstep]
        · simp [bfsLoop, hq, hstep]
      · rw [hq] at hmeas hfuel
        simp only [List.length_cons] at hmeas hfuel
        rcases ih s2 (acc + (s2.q.length + 1 - (rest.length + 1))) inv2
            (by omega) with
          ⟨hcount, hloop, hwit⟩ | ⟨sF, k, hcount, hloop, invF, hqF, hbal⟩
        · refine Or.inl ⟨?_, ?_, hwit⟩
          · simp only [bfsLoopCount, hq, hstep, List.length_cons]
            exact hcount
          · simp only [bfsLoop, hq, hstep]
            exact hloop
        · refine Or.inr ⟨sF, k, ?_, ?_, invF, hqF, ?_⟩
          · simp only [bfsLoopCount, hq, hstep, List.length_cons]
            exact hcount
          · simp only [bfsLoop, hq, hstep]
            exact hloop
          · omega

/-! ### The initial state and the full pipeline -/

theorem initState_spec {n : Nat} (hn : 1 ≤ n) :
    initState n = some
      { dist := (List.replicate n INT_MAX).set 0 0,
        visited := (List.replicate n ((false : Bool), (false : Bool))).set 0
          (true, true),
        q := [(0, 0, 0), (0, 0, 1)] } := by
  have h0n : 0 < n := hn
  simp [initState, vecSet, vecGet, h0n, List.getElem?_replicate, setFlag,
    List.set_set]

theorem unvisited_init {n : Nat} (hn : 1 ≤ n) :
    unvisited ((List.replicate n ((false : Bool), (false : Bool))).set 0
      (true, true)) + 2 = 2 * n := by
  obtain ⟨m, rfl⟩ : ∃ m, n = m + 1 := ⟨n - 1, by omega⟩
  simp [List.replicate_succ, unvisited, rowWeight, List.map_replicate,
    List.sum_replicate]
  omega

theorem initInv {n : Nat} (red blue : EdgeList) (hn : 1 ≤ n) :
    Inv n red blue
      { dist := (List.replicate n INT_MAX).set 0 0,
        visited := (List.replicate n ((false : Bool), (false : Bool))).set 0
          (true, true),
        q := [(0, 0, 0), (0, 0, 1)] } := by
  have h0n : 0 < n := hn
  have hVlen : ((List.replicate n ((false : Bool), (false : Bool)))).length = n := by
    simp
  have hflag : ∀ v c,
      flagOn ((List.replicate n ((false : Bool), (false : Bool))).set 0
        (true, true)) v c = true ↔ v = 0 := by
    intro v c
    by_cases hv : v = 0
    · subst hv
      rw [flagOn]
      rw [getD_set_self _ _ (by rw [hVlen]; exact h0n)]
      simp [getFlag]
    · rw [flagOn, getD_set_ne _ _ hv]
      constructor
      · intro h
        exfalso
        by_cases hvn : v < n
        · rw [List.getD_eq_getElem?_getD, List.getElem?_replicate,
            if_pos hvn] at h
          simp [getFlag] at h
        · rw [List.getD_eq_getElem?_getD,
            List.getElem?_len_le (by simp; omega)] at h
          simp [getFlag] at h
      · intro h
        exact absurd h hv
  have hminsd0 : ∀ c, c < 2 → MinSD red blue 0 c 0 := fun c hc =>
    ⟨AltReach.start c hc, fun _ _ => Nat.zero_le _⟩
  refine ⟨?_, ?_, ?_, ?_, ?_, ?_, ?_, ?_, ?_, ?_, ?_⟩
  · simp
  · simp
  · exact (hflag 0 0).mpr rfl
  · exact (hflag 0 1).mpr rfl
  · intro x hx
    simp only [List.mem_cons, List.mem_singleton] at hx
    rcases hx with rfl | rfl | hx
    · exact ⟨0, 0, by simp, by simp, h0n, by decide, hminsd0 0 (by omega),
        (hflag 0 0).mpr rfl⟩
    · exact ⟨0, 0, by simp, by simp, h0n, by decide, hminsd0 1 (by omega),
        (hflag 0 1).mpr rfl⟩
    · simp at hx
  · simp [List.pairwise_cons]
  · intro a ha b hb
    simp only [List.mem_cons, List.mem_singleton] at ha hb
    rcases ha with rfl | rfl | ha
    · rcases hb with rfl | rfl | hb
      · simp
      · simp
      · simp at hb
    · rcases hb with rfl | rfl | hb
      · simp
      · simp
      · simp at hb
    · simp at ha
  · intro v c hc2 hf
    have hv0 := (hflag v c).mp hf
    subst hv0
    left
    interval_cases c
    · exact ⟨(0, 0, 0), by simp, by simp, rfl⟩
    · exact ⟨(0, 0, 1), by simp, by simp, rfl⟩
  · intro v c dd _ hcond
    have := hcond (0, 0, 0) rfl
    simp only at this
    omega
  · intro v hv
    by_cases hveq : v = 0
    · subst hveq
      refine Or.inr ⟨0, ?_, ⟨0, (hflag 0 0).mpr rfl, hminsd0 0 (by omega)⟩,
        fun _ _ _ _ => Nat.zero_le _⟩
      simp only
      rw [getD_set_self _ _ (by simp; exact h0n)]
      rw [show ((0 : Nat) : Int) = 0 by simp]
      rw [min_eq_right (by norm_num [INT_MAX])]
    · refine Or.inl ⟨?_, ?_⟩
      · simp only
        rw [getD_set_ne _ _ hveq, List.getD_eq_getElem?_getD,
          List.getElem?_replicate, if_pos hv]
        rfl
      · intro c
        have := hflag v c
        revert this
        cases flagOn ((List.replicate n ((false : Bool), (false : Bool))).set 0
          (true, true)) v c
        · intro _
          rfl
        · intro h
          exact absurd (h.mp rfl) hveq
  · intro v c dd hf hm
    have hv0 := (hflag v c).mp hf
    subst hv0
    have hc2 := AltReach_color_lt hm.1
    have hdd : dd = 0 := by
      have := hm.2 0 (AltReach.start c hc2)
      omega
    subst hdd
    norm_num [INT_MAX]

/-- The value the final pass leaves at index `v`. -/
theorem finalize_getD {dist : List Int} {v : Nat} (h : v < dist.length) :
    (finalize dist).getD v 0 =
      if dist.getD v 0 = INT_MAX then -1 else dist.getD v 0 := by
  obtain ⟨x, hx⟩ := exists_getElem? h
  unfold finalize
  rw [List.getD_eq_getElem?_getD, List.getElem?_map, hx,
    getD_of_getElem? 0 hx]
  rfl

/-- A zero distance entry survives the final pass (0 is not the sentinel). -/
theorem finalize_getD_zero {dist : List Int} {v : Nat}
    (h : dist.getD v 0 = 0) : (finalize dist).getD v 0 = 0 := by
  by_cases hlt : v < dist.length
  · rw [finalize_getD hlt, h]
    rw [if_neg (by norm_num [INT_MAX])]
  · rw [List.getD_eq_getElem?_getD,
      List.getElem?_len_le (by simp only [finalize, List.length_map]; omega)]
    rfl

/-- Running the whole pipeline on a valid input on which no state of the
expanded search space lies at exact distance beyond `INT_MAX` (so
`currentDistance + 1` never overflows): the function succeeds and the final
BFS state satisfies the invariant with a drained queue. -/
theorem shortestAlternatingPaths_run {n : Nat} {red blue : EdgeList}
    (hn : 1 ≤ n) (hr : ValidEdges n red) (hb : ValidEdges n blue)
    (hbd : ∀ v c d, MinSD red blue v c d → (d : Int) ≤ INT_MAX) :
    ∃ sF, shortestAlternatingPaths n red blue = some (finalize sF.dist) ∧
      Inv n red blue sF ∧ sF.q = [] ∧ sF.dist.length = n := by
  obtain ⟨adj, hadjeq, hadjlen, hadjcontent⟩ := mkAdj_spec hr hb
  have inv0 := initInv red blue hn
  have hunv := unvisited_init hn
  rcases bfsLoopCount_spec hadjcontent hr hb (2 * n + 1)
      { dist := (List.replicate n INT_MAX).set 0 0,
        visited := (List.replicate n ((false : Bool), (false : Bool))).set 0
          (true, true),
        q := [(0, 0, 0), (0, 0, 1)] } 0 inv0
      (by simp; omega) with
    ⟨_, _, v, c, d, hm, hlt⟩ | ⟨sF, k, _, hloop, invF, hqF, _⟩
  · have := hbd v c d hm
    omega
  · refine ⟨sF, ?_, invF, hqF, invF.distLen⟩
    simp only [shortestAlternatingPaths, hadjeq, initState_spec hn, hloop]

/-- Conversely, when some state of the expanded search space lies at exact
distance beyond `INT_MAX`, the run is doomed: once every shorter state has
been expanded, a popped state at distance `INT_MAX` still has an unvisited
alternating successor and the code evaluates `currentDistance + 1 =
INT_MAX + 1` in `int` — signed overflow, undefined behavior (`none`). -/
theorem shortestAlternatingPaths_overflow {n : Nat} {red blue : EdgeList}
    (hn : 1 ≤ n) (hr : ValidEdges n red) (hb : ValidEdges n blue)
    {v c d : Nat} (hm : MinSD red blue v c d) (hd : INT_MAX < (d : Int)) :
    shortestAlternatingPaths n red blue = none := by
  obtain ⟨adj, hadjeq, hadjlen, hadjcontent⟩ := mkAdj_spec hr hb
  have inv0 := initInv red blue hn
  have hunv := unvisited_init hn
  rcases bfsLoopCount_spec hadjcontent hr hb (2 * n + 1)
      { dist := (List.replicate n INT_MAX).set 0 0,
        visited := (List.replicate n ((false : Bool), (false : Bool))).set 0
          (true, true),
        q := [(0, 0, 0), (0, 0, 1)] } 0 inv0
      (by simp; omega) with
    ⟨_, hloopnone, _⟩ | ⟨sF, k, _, hloop, invF, hqF, _⟩
  · simp only [shortestAlternatingPaths, hadjeq, initState_spec hn, hloopnone]
  · exfalso
    have hclosedF : ∀ w cw, cw < 2 → flagOn sF.visited w cw = true →
        SuccClosed red blue sF.visited w cw := by
      intro w cw hc2 hf
      rcases invF.flagCover w cw hc2 hf with ⟨y, hy, _⟩ | hclosed
      · rw [hqF] at hy
        simp at hy
      · exact hclosed
    have hflag : flagOn sF.visited v c = true :=
      all_flagged_of_closed invF.zeroFlag0 invF.zeroFlag1 hclosedF hm.1
    have := invF.flagDist v c d hflag hm
    omega

/-- Full functional correctness of the embedding on valid overflow-free
inputs, stated against the walk semantics: each output entry is the length of
a shortest alternating walk when that length is below the `INT_MAX` sentinel,
and `-1` when the node is unreachable or its shortest distance collides with
the sentinel. -/
theorem shortestAlternatingPaths_spec {n : Nat} {red blue : EdgeList}
    (hn : 1 ≤ n) (hr : ValidEdges n red) (hb : ValidEdges n blue)
    (hbd : ∀ v c d, MinSD red blue v c d → (d : Int) ≤ INT_MAX) :
    ∃ out, shortestAlternatingPaths n red blue = some out ∧ out.length = n ∧
      ∀ v, v < n →
        (∃ d : Nat, MinNodeDist red blue v d ∧ (d : Int) < INT_MAX ∧
          out.getD v 0 = (d : Int)) ∨
        (out.getD v 0 = -1 ∧ ((∀ c d, ¬ AltReach red blue v c d) ∨
          ∃ d : Nat, MinNodeDist red blue v d ∧ INT_MAX ≤ (d : Int))) := by
  obtain ⟨sF, hout, invF, hqF, hlen⟩ :=
    shortestAlternatingPaths_run hn hr hb hbd
  have hclosedF : ∀ v c, c < 2 → flagOn sF.visited v c = true →
      SuccClosed red blue sF.visited v c := by
    intro v c hc2 hf
    rcases invF.flagCover v c hc2 hf with ⟨y, hy, _⟩ | hclosed
    · rw [hqF] at hy
      simp at hy
    · exact hclosed
  have hallflag : ∀ {v c dd : Nat}, AltReach red blue v c dd →
      flagOn sF.visited v c = true := fun h =>
    all_flagged_of_closed invF.zeroFlag0 invF.zeroFlag1 hclosedF h
  refine ⟨finalize sF.dist, hout, by simp [finalize, hlen], ?_⟩
  intro v hv
  have hvdist : v < sF.dist.length := by rw [hlen]; exact hv
  rcases invF.distOk v hv with ⟨hIM, hnoflag⟩ | ⟨dm, hval, ⟨c0, hc0f, hc0m⟩, hlb⟩
  · refine Or.inr ⟨?_, Or.inl ?_⟩
    · rw [finalize_getD hvdist, if_pos hIM]
    · intro c d hAR
      have := hallflag hAR
      rw [hnoflag c] at this
      exact Bool.false_ne_true this
  · have hnode : MinNodeDist red blue v dm := by
      refine ⟨⟨c0, hc0m.1⟩, ?_⟩
      rintro d2 ⟨c2, h2⟩
      obtain ⟨e, he, hee⟩ := exists_minSD h2
      have := hlb c2 e (hallflag he.1) he
      omega
    rcases lt_or_le (dm : Int) INT_MAX with hlt | hge
    · refine Or.inl ⟨dm, hnode, hlt, ?_⟩
      rw [finalize_getD hvdist, hval, min_eq_right (le_of_lt hlt)]
      rw [if_neg (by omega)]
    · refine Or.inr ⟨?_, Or.inr ⟨dm, hnode, hge⟩⟩
      rw [finalize_getD hvdist, hval, min_eq_left hge]
      rw [if_pos rfl]

/-! ### Unconditional step facts (no validity assumptions)

These hold for every state the inner loop can be run from, not only along
executions on valid inputs: visited flags only go from `false` to `true`, the
queue grows only at the back, and a push for a state happens exactly at the
transition that marks it visited. -/

theorem processEdges_push_flip {p : Nat} {d : Int} {E : List (Int × Nat)} :
    ∀ {s s' : BfsState}, processEdges E p d s = some s' →
      (∀ v c, flagOn s.visited v c = true → flagOn s'.visited v c = true) ∧
      ∃ nw, s'.q = s.q ++ nw ∧
        (∀ y ∈ nw, ∃ vn : Nat, y.1 = (vn : Int) ∧
          flagOn s.visited vn y.2.2 = false ∧
          flagOn s'.visited vn y.2.2 = true) ∧
        nw.Pairwise (fun a b => ¬(a.1 = b.1 ∧ a.2.2 = b.2.2)) := by
  induction E with
  | nil =>
    intro s s' h
    simp only [processEdges] at h
    cases h
    exact ⟨fun _ _ hh => hh, [], by simp, by simp, by simp⟩
  | cons x rest ih =>
    obtain ⟨nb, ec⟩ := x
    intro s s' h
    by_cases hep : ec = p
    · simp only [processEdges, hep] at h
      simp at h
      exact ih h
    · simp only [processEdges, if_pos hep] at h
      split at h
      · cases h
      · rename_i flags hget
        split at h
        · exact ih h
        · rename_i hflagneg
          have hflag : getFlag flags ec = false :=
            Bool.not_eq_true _ ▸ eq_false_of_ne_true hflagneg
          split at h
          · cases h
          · rename_i visited2 hset1
            split at h
            · cases h
            · rename_i nd hadd
              split at h
              · cases h
              · rename_i dv hget2
                split at h
                · cases h
                · rename_i dist2 hset2
                  obtain ⟨hnb0, hvget⟩ := vecGet_eq_some hget
                  obtain ⟨_, _, hvis2⟩ := vecSet_eq_some hset1
                  subst hvis2
                  obtain ⟨hmono1, nw1, hq1, hnw1, hpw1⟩ := ih h
                  simp only at hmono1 hq1 hnw1
                  have hflagOn : flagOn s.visited nb.toNat ec = false := by
                    rw [flagOn_eq_of_get? hvget]
                    exact hflag
                  have hmonoSet : ∀ v c, flagOn s.visited v c = true →
                      flagOn (s.visited.set nb.toNat (setFlag flags ec)) v c
                        = true := fun v c hh => flagOn_set_mono hvget ec hh
                  have hselfSet :
                      flagOn (s.visited.set nb.toNat (setFlag flags ec))
                        nb.toNat ec = true := by
                    rw [flagOn_set hvget]
                    simp [getFlag_setFlag_self]
                  refine ⟨?_, (nb, nd, ec) :: nw1, ?_, ?_, ?_⟩
                  · intro v c hh
                    exact hmono1 v c (hmonoSet v c hh)
                  · rw [hq1]
                    simp
                  · intro y hy
                    rcases List.mem_cons.mp hy with rfl | hy'
                    · exact ⟨nb.toNat, by simp; omega, hflagOn,
                        hmono1 _ _ hselfSet⟩
                    · obtain ⟨vn, hy1, hyb, hya⟩ := hnw1 y hy'
                      refine ⟨vn, hy1, ?_, hya⟩
                      cases hcur : flagOn s.visited vn y.2.2 with
                      | false => rfl
                      | true =>
                        have := hmonoSet _ _ hcur
                        rw [hyb] at this
                        exact absurd this (by simp)
                  · rw [List.pairwise_cons]
                    refine ⟨?_, hpw1⟩
                    rintro y hy ⟨hsame1, hsame2⟩
                    obtain ⟨vn, hy1, hyb, _⟩ := hnw1 y hy
                    have hvn : vn = nb.toNat := by
                      rw [← hsame1] at hy1
                      simp only at hy1
                      omega
                    subst hvn
                    rw [← hsame2] at hyb
                    simp only at hyb
                    rw [hselfSet] at hyb
                    exact Bool.true_eq_false.mp hyb

/-- One loop iteration, unconditionally: flags are monotone and the pushed
entries are exactly the states flipped from unvisited to visited, each pushed
at most once. -/
theorem bfsStep_push_flip {adj : List (List (Int × Nat))} {s s' : BfsState}
    {x : Int × Int × Nat} {rest : List (Int × Int × Nat)}
    (hq : s.q = x :: rest) (h : bfsStep adj s = some s') :
    (∀ v c, flagOn s.visited v c = true → flagOn s'.visited v c = true) ∧
    ∃ nw, s'.q = rest ++ nw ∧
      (∀ y ∈ nw, ∃ vn : Nat, y.1 = (vn : Int) ∧
        flagOn s.visited vn y.2.2 = false ∧
        flagOn s'.visited vn y.2.2 = true) ∧
      nw.Pairwise (fun a b => ¬(a.1 = b.1 ∧ a.2.2 = b.2.2)) := by
  obtain ⟨x1, x2, x3⟩ := x
  simp only [bfsStep, hq] at h
  cases hget : vecGet adj x1 with
  | none =>
    rw [hget] at h
    cases h
  | some edges =>
    rw [hget] at h
    exact processEdges_push_flip h

/-! ### The no-min variant performs the same traversal -/

theorem vecGet_none_iff {α : Type} {l : List α} {i : Int} :
    vecGet l i = none ↔ (i < 0 ∨ l.length ≤ i.toNat) := by
  unfold vecGet
  by_cases h0 : 0 ≤ i
  · rw [if_pos h0]
    constructor
    · intro h
      right
      by_contra hlt
      obtain ⟨x, hx⟩ := exists_getElem? (l := l) (v := i.toNat) (by omega)
      rw [hx] at h
      cases h
    · intro h
      rcases h with h | h
      · omega
      · exact List.getElem?_len_le h
  · rw [if_neg h0]
    constructor
    · intro _
      left
      omega
    · intro _
      rfl

theorem vecGet_some_of_length {α : Type} {l l' : List α} {i : Int} {x : α}
    (hlen : l.length = l'.length) (h : vecGet l i = some x) :
    ∃ x', vecGet l' i = some x' := by
  obtain ⟨h0, hget⟩ := vecGet_eq_some h
  have hlt : i.toNat < l'.length := by
    rw [← hlen]
    exact (List.getElem?_eq_some.mp hget).1
  obtain ⟨x', hx'⟩ := exists_getElem? hlt
  exact ⟨x', by rw [vecGet]; rw [if_pos h0]; exact hx'⟩

/-- A `visited` row whose two flags are set defeats the first-visit test for
every color. -/
theorem getFlag_all_true {pr : Bool × Bool} (h0 : pr.1 = true)
    (h1 : pr.2 = true) (c : Nat) : getFlag pr c = true := by
  unfold getFlag
  by_cases hc : c = 0 <;> simp [hc, h0, h1]

/-- The inner loops of the original and of the unconditional-assignment
variant succeed together and produce the same visited matrix and queue; the
variant never touches the distance entry of node 0 (whose states are visited
from the start). -/
theorem processEdges_trace {p : Nat} {d : Int} {E : List (Int × Nat)} :
    ∀ {s t : BfsState}, s.visited = t.visited → s.q = t.q →
      s.dist.length = t.dist.length →
      flagOn t.visited 0 0 = true → flagOn t.visited 0 1 = true →
      (processEdges E p d s = none ∧ processEdgesNoMin E p d t = none) ∨
      (∃ s' t', processEdges E p d s = some s' ∧
        processEdgesNoMin E p d t = some t' ∧ s'.visited = t'.visited ∧
        s'.q = t'.q ∧ s'.dist.length = t'.dist.length ∧
        s'.dist.getD 0 0 = s.dist.getD 0 0 ∧
        t'.dist.getD 0 0 = t.dist.getD 0 0 ∧
        flagOn t'.visited 0 0 = true ∧ flagOn t'.visited 0 1 = true) := by
  induction E with
  | nil =>
    intro s t hv hq hlen hz0 hz1
    right
    exact ⟨s, t, rfl, rfl, hv, hq, hlen, rfl, rfl, hz0, hz1⟩
  | cons x rest ih =>
    obtain ⟨nb, ec⟩ := x
    intro s t hv hq hlen hz0 hz1
    by_cases hep : ec = p
    · have := ih hv hq hlen hz0 hz1
      simpa [processEdges, processEdgesNoMin, hep] using this
    · cases hget : vecGet s.visited nb with
      | none =>
        left
        constructor
        · simp [processEdges, if_pos hep, hget]
        · rw [hv] at hget
          simp [processEdgesNoMin, if_pos hep, hget]
      | some flags =>
        have hgetT : vecGet t.visited nb = some flags := by rw [← hv]; exact hget
        cases hflag : getFlag flags ec with
        | true =>
          have := ih hv hq hlen hz0 hz1
          rcases this with ⟨h1, h2⟩ |
            ⟨s', t', h1, h2, h3, h4, h5, h6, h7, h8, h9⟩
          · left
            constructor
            · simp [processEdges, if_pos hep, hget, hflag, h1]
            · simp [processEdgesNoMin, if_pos hep, hgetT, hflag, h2]
          · right
            refine ⟨s', t', ?_, ?_, h3, h4, h5, h6, h7, h8, h9⟩
            · simp [processEdges, if_pos hep, hget, hflag, h1]
            · simp [processEdgesNoMin, if_pos hep, hgetT, hflag, h2]
        | false =>
          obtain ⟨hnb0, hvget⟩ := vecGet_eq_some hget
          have hvgetT : t.visited[nb.toNat]? = some flags := by
            rw [← hv]
            exact hvget
          -- node 0 has both flags set, so the written node is not node 0
          have hnbne : nb.toNat ≠ 0 := by
            intro h00
            rw [h00] at hvgetT
            have hf0 : flags.1 = true := by
              have := flagOn_eq_of_get? hvgetT 0
              rw [hz0] at this
              simpa [getFlag] using this.symm
            have hf1 : flags.2 = true := by
              have := flagOn_eq_of_get? hvgetT 1
              rw [hz1] at this
              simpa [getFlag] using this.symm
            rw [getFlag_all_true hf0 hf1 ec] at hflag
            cases hflag
          have hsetv : vecSet s.visited nb (setFlag flags ec) =
              some (s.visited.set nb.toNat (setFlag flags ec)) := by
            unfold vecSet
            rw [if_pos ⟨hnb0, (List.getElem?_eq_some.mp hvget).1⟩]
          have hsetvT : vecSet t.visited nb (setFlag flags ec) =
              some (t.visited.set nb.toNat (setFlag flags ec)) := by
            unfold vecSet
            rw [if_pos ⟨hnb0, (List.getElem?_eq_some.mp hvgetT).1⟩]
          cases hadd : intAdd1 d with
          | none =>
            left
            constructor
            · simp [processEdges, if_pos hep, hget, hflag, hsetv, hadd]
            · simp [processEdgesNoMin, if_pos hep, hgetT, hflag, hsetvT, hadd]
          | some nd =>
            cases hdget : vecGet s.dist nb with
            | none =>
              have hdgetT : vecGet t.dist nb = none := by
                rw [vecGet_none_iff] at hdget ⊢
                omega
              left
              constructor
              · simp [processEdges, if_pos hep, hget, hflag, hsetv, hadd,
                  hdget]
              · simp [processEdgesNoMin, if_pos hep, hgetT, hflag, hsetvT,
                  hadd, hdgetT]
            | some dv =>
              obtain ⟨dvT, hdgetT⟩ := vecGet_some_of_length hlen hdget
              have hdlt : nb.toNat < s.dist.length :=
                (List.getElem?_eq_some.mp (vecGet_eq_some hdget).2).1
              have hsetd : vecSet s.dist nb (min dv nd) =
                  some (s.dist.set nb.toNat (min dv nd)) := by
                unfold vecSet
                rw [if_pos ⟨hnb0, hdlt⟩]
              have hsetdT : vecSet t.dist nb nd =
                  some (t.dist.set nb.toNat nd) := by
                unfold vecSet
                rw [if_pos ⟨hnb0, by omega⟩]
              have hmonoT : ∀ v c, flagOn t.visited v c = true →
                  flagOn (t.visited.set nb.toNat (setFlag flags ec)) v c
                    = true := fun v c hh => flagOn_set_mono hvgetT ec hh
              set s1 : BfsState :=
                { dist := s.dist.set nb.toNat (min dv nd),
                  visited := s.visited.set nb.toNat (setFlag flags ec),
                  q := s.q ++ [(nb, nd, ec)] } with hs1
              set t1 : BfsState :=
                { dist := t.dist.set nb.toNat nd,
                  visited := t.visited.set nb.toNat (setFlag flags ec),
                  q := t.q ++ [(nb, nd, ec)] } with ht1
              have hv1 : s1.visited = t1.visited := by
                simp only [hs1, ht1]
                rw [hv]
              have hq1 : s1.q = t1.q := by
                simp only [hs1, ht1]
                rw [hq]
              have hlen1 : s1.dist.length = t1.dist.length := by
                simp only [hs1, ht1, List.length_set]
                exact hlen
              have hrec := ih hv1 hq1 hlen1
                (by simp only [ht1]; exact hmonoT 0 0 hz0)
                (by simp only [ht1]; exact hmonoT 0 1 hz1)
              rcases hrec with ⟨h1, h2⟩ |
                ⟨s', t', h1, h2, h3, h4, h5, h6, h7, h8, h9⟩
              · left
                constructor
                · simp [processEdges, if_pos hep, hget, hflag, hsetv, hadd,
                    hdget, hsetd, h1]
                · simp [processEdgesNoMin, if_pos hep, hgetT, hflag, hsetvT,
                    hadd, hdgetT, hsetdT, h2]
              · right
                refine ⟨s', t', ?_, ?_, h3, h4, h5, ?_, ?_, h8, h9⟩
                · simp [processEdges, if_pos hep, hget, hflag, hsetv, hadd,
                    hdget, hsetd, h1]
                · simp [processEdgesNoMin, if_pos hep, hgetT, hflag, hsetvT,
                    hadd, hdgetT, hsetdT, h2]
                · rw [h6]
                  simp only
                  exact getD_set_ne _ _ (fun hh => hnbne hh.symm)
                · rw [h7]
                  simp only
                  exact getD_set_ne _ _ (fun hh => hnbne hh.symm)

/-- The two loops run in lock-step: same termination behavior, same visited
matrix, same queue, same distance-array length, and neither run touches the
distance entry of node 0. -/
theorem bfsLoop_trace {adj : List (List (Int × Nat))} :
    ∀ (fuel : Nat) {s t : BfsState}, s.visited = t.visited → s.q = t.q →
      s.dist.length = t.dist.length →
      flagOn t.visited 0 0 = true → flagOn t.visited 0 1 = true →
      (bfsLoop adj fuel s = none ∧ bfsLoopNoMin adj fuel t = none) ∨
      (∃ s' t', bfsLoop adj fuel s = some s' ∧
        bfsLoopNoMin adj fuel t = some t' ∧ s'.dist.length = t'.dist.length ∧
        s'.dist.getD 0 0 = s.dist.getD 0 0 ∧
        t'.dist.getD 0 0 = t.dist.getD 0 0) := by
  intro fuel
  induction fuel with
  | zero =>
    intro s t _ _ _ _ _
    exact Or.inl ⟨rfl, rfl⟩
  | succ f ih =>
    intro s t hv hq hlen hz0 hz1
    cases hsq : s.q with
    | nil =>
      right
      refine ⟨s, t, ?_, ?_, hlen, rfl, rfl⟩
      · simp [bfsLoop, hsq]
      · simp [bfsLoopNoMin, ← hq, hsq]
    | cons x rest =>
      obtain ⟨x1, x2, x3⟩ := x
      have htq : t.q = (x1, x2, x3) :: rest := by rw [← hq]; exact hsq
      cases hadjget : vecGet adj x1 with
      | none =>
        left
        constructor
        · simp [bfsLoop, hsq, bfsStep, hadjget]
        · simp [bfsLoopNoMin, htq, bfsStepNoMin, hadjget]
      | some edges =>
        have htrace := processEdges_trace
          (s := { s with q := rest }) (t := { t with q := rest })
          (E := edges) (p := x3) (d := x2) hv rfl hlen hz0 hz1
        rcases htrace with ⟨h1, h2⟩ |
          ⟨s2, t2, h1, h2, h3, h4, h5, h6, h7, h8, h9⟩
        · left
          constructor
          · simp [bfsLoop, hsq, bfsStep, hadjget, h1]
          · simp [bfsLoopNoMin, htq, bfsStepNoMin, hadjget, h2]
        · have hrec := ih h3 h4 h5 h8 h9
          rcases hrec with ⟨hr1, hr2⟩ | ⟨s', t', hr1, hr2, hr3, hr4, hr5⟩
          · left
            constructor
            · simp [bfsLoop, hsq, bfsStep, hadjget, h1, hr1]
            · simp [bfsLoopNoMin, htq, bfsStepNoMin, hadjget, h2, hr2]
          · right
            refine ⟨s', t', ?_, ?_, hr3, ?_, ?_⟩
            · simp [bfsLoop, hsq, bfsStep, hadjget, h1, hr1]
            · simp [bfsLoopNoMin, htq, bfsStepNoMin, hadjget, h2, hr2]
            · rw [hr4, h6]
            · rw [hr5, h7]

/-- The unconditional-assignment variant and the original run in lock-step on
every input: they fail together, and on success the variant returns a
sequence of the same length that still reports 0 for node 0 — while, as the
counterexample input shows, other entries can differ. -/
theorem noMin_lockstep (n : Nat) (red blue : EdgeList) :
    (shortestAlternatingPathsNoMin n red blue = none ↔
      shortestAlternatingPaths n red blue = none) ∧
    ∀ out, shortestAlternatingPaths n red blue = some out →
      ∃ outV, shortestAlternatingPathsNoMin n red blue = some outV ∧
        outV.length = out.length ∧ out.getD 0 0 = 0 ∧ outV.getD 0 0 = 0 := by
  by_cases hn : 1 ≤ n
  case neg =>
    have hn0 : n = 0 := by omega
    subst hn0
    have hinit : initState 0 = none := by decide
    constructor
    · unfold shortestAlternatingPaths shortestAlternatingPathsNoMin
      cases mkAdj 0 red blue <;> simp [hinit]
    · intro out hout
      unfold shortestAlternatingPaths at hout
      cases hmk : mkAdj 0 red blue <;> rw [hmk] at hout <;>
        simp [hinit] at hout
  case pos =>
    set s0 : BfsState :=
      { dist := (List.replicate n INT_MAX).set 0 0,
        visited := (List.replicate n ((false : Bool), (false : Bool))).set 0
          (true, true),
        q := [(0, 0, 0), (0, 0, 1)] } with hs0
    have hz0 : flagOn s0.visited 0 0 = true := (initInv red blue hn).zeroFlag0
    have hz1 : flagOn s0.visited 0 1 = true := (initInv red blue hn).zeroFlag1
    have hd00 : s0.dist.getD 0 0 = 0 := by
      rw [hs0]
      simp only
      exact getD_set_self _ _ (by simp; omega)
    cases hmk : mkAdj n red blue with
    | none =>
      constructor
      · simp [shortestAlternatingPaths, shortestAlternatingPathsNoMin, hmk]
      · intro out hout
        simp [shortestAlternatingPaths, hmk] at hout
    | some adj =>
      have htrace := @bfsLoop_trace adj (2 * n + 1) s0 s0
        rfl rfl rfl hz0 hz1
      rcases htrace with ⟨h1, h2⟩ | ⟨s', t', h1, h2, h3, h4, h5⟩
      · have hf : shortestAlternatingPaths n red blue = none := by
          simp only [shortestAlternatingPaths, hmk, initState_spec hn, ← hs0,
            h1]
        have hfV : shortestAlternatingPathsNoMin n red blue = none := by
          simp only [shortestAlternatingPathsNoMin, hmk, initState_spec hn,
            ← hs0, h2]
        constructor
        · rw [hf, hfV]
        · intro out hout
          rw [hf] at hout
          cases hout
      · have hf : shortestAlternatingPaths n red blue =
            some (finalize s'.dist) := by
          simp only [shortestAlternatingPaths, hmk, initState_spec hn, ← hs0,
            h1]
        have hfV : shortestAlternatingPathsNoMin n red blue =
            some (finalize t'.dist) := by
          simp only [shortestAlternatingPathsNoMin, hmk, initState_spec hn,
            ← hs0, h2]
        constructor
        · rw [hf, hfV]
          simp
        · intro out hout
          rw [hf] at hout
          rw [Option.some.injEq] at hout
          subst hout
          refine ⟨finalize t'.dist, hfV, ?_, ?_, ?_⟩
          · simp [finalize, h3]
          · exact finalize_getD_zero (by rw [h4, hd00])
          · exact finalize_getD_zero (by rw [h5, hd00])

/-! ### The store-threaded version returns the inputs unchanged -/

theorem storeList_zero (st : Store) : storeList st 0 = st.redEdges := rfl

theorem storeList_one (st : Store) : storeList st 1 = st.blueEdges := rfl

theorem buildAdjST_eq (c : Nat) : ∀ (k i : Nat) (st : Store)
    (adj : List (List (Int × Nat))), i + k = (storeList st c).length →
    buildAdjST c k i st adj =
      (buildAdj adj ((storeList st c).drop i) c).map (fun a => (a, st)) := by
  intro k
  induction k with
  | zero =>
    intro i st adj hik
    have hdrop : (storeList st c).drop i = [] :=
      List.drop_eq_nil_of_le (by omega)
    have hnone : (storeList st c)[i]? = none :=
      List.getElem?_len_le (by omega)
    simp [buildAdjST, hnone, hdrop, buildAdj]
  | succ m ih =>
    intro i st adj hik
    have hi : i < (storeList st c).length := by omega
    obtain ⟨e, he⟩ := exists_getElem? hi
    have hdrop : (storeList st c).drop i = e :: (storeList st c).drop (i + 1) := by
      rw [List.drop_eq_getElem_cons hi]
      congr 1
      exact (List.getElem?_eq_some.mp he).2
    simp only [buildAdjST, he, hdrop, buildAdj]
    cases hp : pushEdge adj e c with
    | none => simp
    | some adj2 => exact ih (i + 1) st adj2 (by omega)

theorem bfsLoopST_eq (adj : List (List (Int × Nat))) : ∀ (fuel : Nat)
    (s : BfsState) (st : Store),
    bfsLoopST adj fuel s st = (bfsLoop adj fuel s).map (fun x => (x, st)) := by
  intro fuel
  induction fuel with
  | zero =>
    intro s st
    rfl
  | succ f ih =>
    intro s st
    cases hq : s.q with
    | nil => simp [bfsLoopST, bfsLoop, hq]
    | cons x rest =>
      simp only [bfsLoopST, bfsLoop, hq]
      cases hs : bfsStep adj s with
      | none => simp
      | some s2 => simp [ih]

/-- The store-threaded run computes exactly the plain function's result and
returns the caller's `redEdges`/`blueEdges` unchanged. -/
theorem shortestAlternatingPathsST_eq (n : Nat) (st : Store) :
    shortestAlternatingPathsST n st =
      (shortestAlternatingPaths n st.redEdges st.blueEdges).map
        (fun out => (out, st)) := by
  unfold shortestAlternatingPathsST shortestAlternatingPaths mkAdj
  rw [buildAdjST_eq 0 st.redEdges.length 0 st _
    (by rw [storeList_zero]; omega)]
  rw [storeList_zero, List.drop_zero]
  cases h1 : buildAdj (List.replicate n []) st.redEdges 0 with
  | none => rfl
  | some adj1 =>
    simp only [Option.map_some']
    rw [buildAdjST_eq 1 st.blueEdges.length 0 st adj1
      (by rw [storeList_one]; omega)]
    rw [storeList_one, List.drop_zero]
    cases h2 : buildAdj adj1 st.blueEdges 1 with
    | none => rfl
    | some adj =>
      simp only [Option.map_some']
      cases h3 : initState n with
      | none => rfl
      | some s0 =>
        simp only [bfsLoopST_eq]
        cases h4 : bfsLoop adj (2 * n + 1) s0 with
        | none => rfl
        | some sF => rfl

/-! ### Facts about the sentinel-collision and overflow inputs -/

theorem cexRed_valid : ValidEdges cexN cexRed := by
  intro e he
  rw [cexRed, List.mem_map] at he
  obtain ⟨k, hk, rfl⟩ := he
  rw [List.mem_range] at hk
  refine ⟨?_, ?_, ?_, ?_⟩ <;>
  · norm_num [cexN]
    try push_cast
    try omega

theorem cexBlue_valid : ValidEdges cexN cexBlue := by
  intro e he
  rw [cexBlue, List.mem_map] at he
  obtain ⟨k, hk, rfl⟩ := he
  rw [List.mem_range] at hk
  refine ⟨?_, ?_, ?_, ?_⟩ <;>
  · norm_num [cexN]
    try push_cast
    try omega

theorem cexOvBlue_valid : ValidEdges cexN cexOvBlue := by
  intro e he
  rw [cexOvBlue, List.mem_map] at he
  obtain ⟨k, hk, rfl⟩ := he
  rw [List.mem_range] at hk
  refine ⟨?_, ?_, ?_, ?_⟩ <;>
  · norm_num [cexN]
    try push_cast
    try omega

/-- Lower bounds for every alternating walk of the collision input: node 0
only by the empty walk, and a walk to node `v ≥ 1` has at least `2*v - 1`
edges when its last edge is red, at least `2*v` when blue (and blue is only
possible at nodes carrying a self-loop, `v ≤ 2^30 - 1`). -/
theorem cexReach_bound {v c d : Nat}
    (h : AltReach cexRed cexBlue v c d) :
    (v = 0 ∧ d = 0) ∨
    (1 ≤ v ∧ v ≤ 2 ^ 30 ∧
      ((c = 0 ∧ 2 * v - 1 ≤ d) ∨ (c = 1 ∧ v ≤ 2 ^ 30 - 1 ∧ 2 * v ≤ d))) := by
  induction h with
  | start c hc => exact Or.inl ⟨rfl, rfl⟩
  | step hprev hedge hne ihv =>
    rename_i u p d0 w cw
    have hp2 := AltReach_color_lt hprev
    have hpow : (2 : Nat) ^ 30 = 1073741824 := by norm_num
    rcases hedge with ⟨hc0, hm⟩ | ⟨hc1, hm⟩
    · -- a red chain edge: w = u + 1 with u < 2^30
      subst hc0
      rw [cexRed, List.mem_map] at hm
      obtain ⟨k, hk, he⟩ := hm
      rw [List.mem_range] at hk
      rw [Prod.mk.injEq] at he
      obtain ⟨he1, he2⟩ := he
      have hu : u = k := by exact_mod_cast he1.symm
      have hw : w = k + 1 := by exact_mod_cast he2.symm
      subst hu
      subst hw
      have hp1 : p = 1 := by omega
      subst hp1
      rcases ihv with ⟨hu0, hd0⟩ | ⟨hu1, hule, ⟨hc, hge⟩ | ⟨hc, hule2, hge⟩⟩
      · exact Or.inr ⟨by omega, by omega, Or.inl ⟨rfl, by omega⟩⟩
      · exact absurd hc (by omega)
      · exact Or.inr ⟨by omega, by omega, Or.inl ⟨rfl, by omega⟩⟩
    · -- a blue self-loop: w = u with 1 ≤ u ≤ 2^30 - 1
      subst hc1
      rw [cexBlue, List.mem_map] at hm
      obtain ⟨k, hk, he⟩ := hm
      rw [List.mem_range] at hk
      rw [Prod.mk.injEq] at he
      obtain ⟨he1, he2⟩ := he
      have hu : u = k + 1 := by exact_mod_cast he1.symm
      have hw : w = k + 1 := by exact_mod_cast he2.symm
      subst hu
      subst hw
      have hp0 : p = 0 := by omega
      subst hp0
      rcases ihv with ⟨hu0, hd0⟩ | ⟨hu1, hule, ⟨hc, hge⟩ | ⟨hc, hule2, hge⟩⟩
      · exact absurd hu0 (by omega)
      · exact Or.inr ⟨by omega, by omega, Or.inr ⟨rfl, by omega, by omega⟩⟩
      · exact absurd hc (by omega)

/-- The matching walks exist: node `k` is reached red-last in `2*k - 1` edges
(`1 ≤ k ≤ 2^30`), and blue-last in `2*k` edges when it has a self-loop. -/
theorem cexReach_exists : ∀ k : Nat,
    (1 ≤ k → k ≤ 2 ^ 30 → AltReach cexRed cexBlue k 0 (2 * k - 1)) ∧
    (1 ≤ k → k ≤ 2 ^ 30 - 1 → AltReach cexRed cexBlue k 1 (2 * k)) := by
  have hpow : (2 : Nat) ^ 30 = 1073741824 := by norm_num
  intro k
  induction k with
  | zero => exact ⟨fun h1 _ => absurd h1 (by omega), fun h1 _ => absurd h1 (by omega)⟩
  | succ m ih =>
    have hred : m + 1 ≤ 2 ^ 30 →
        AltReach cexRed cexBlue (m + 1) 0 (2 * (m + 1) - 1) := by
      intro hle
      have hedge : edgeIn cexRed cexBlue m (m + 1) 0 := by
        refine Or.inl ⟨rfl, ?_⟩
        rw [cexRed, List.mem_map]
        refine ⟨m, List.mem_range.mpr (by omega), ?_⟩
        rw [Prod.mk.injEq]
        constructor
        · rfl
        · push_cast
          ring
      rcases Nat.eq_zero_or_pos m with h0 | hpos
      · subst h0
        have hstart : AltReach cexRed cexBlue 0 1 0 :=
          AltReach.start 1 (by omega)
        have := AltReach.step hstart hedge (by omega)
        have heq : (1 : Nat) = 2 * (0 + 1) - 1 := by omega
        rwa [heq] at this
      · have hblue := ih.2 hpos (by omega)
        have := AltReach.step hblue hedge (by omega)
        have heq : 2 * m + 1 = 2 * (m + 1) - 1 := by omega
        rwa [heq] at this
    have hblue : m + 1 ≤ 2 ^ 30 - 1 →
        AltReach cexRed cexBlue (m + 1) 1 (2 * (m + 1)) := by
      intro hle
      have hr := hred (by omega)
      have hedge : edgeIn cexRed cexBlue (m + 1) (m + 1) 1 := by
        refine Or.inr ⟨rfl, ?_⟩
        rw [cexBlue, List.mem_map]
        exact ⟨m, List.mem_range.mpr (by omega), rfl⟩
      have := AltReach.step hr hedge (by omega)
      have heq : 2 * (m + 1) - 1 + 1 = 2 * (m + 1) := by omega
      rwa [heq] at this
    exact ⟨fun _ => hred, fun _ => hblue⟩

/-- No state of the collision input lies beyond `INT_MAX`: the run is free of
signed overflow. -/
theorem cex_noOverflow : ∀ v c d, MinSD cexRed cexBlue v c d →
    (d : Int) ≤ INT_MAX := by
  intro v c d hm
  have hpow : (2 : Nat) ^ 30 = 1073741824 := by norm_num
  rcases cexReach_bound hm.1 with ⟨hv0, hd0⟩ | ⟨h1, h2, ⟨hc, _⟩ | ⟨hc, h3, _⟩⟩
  · subst hd0
    norm_num [INT_MAX]
  · subst hc
    have hex := (cexReach_exists v).1 h1 h2
    have hle := hm.2 _ hex
    have hdle : d ≤ 2147483647 := by omega
    norm_num [INT_MAX]
    exact_mod_cast hdle
  · subst hc
    have hex := (cexReach_exists v).2 h1 h3
    have hle := hm.2 _ hex
    have hdle : d ≤ 2147483647 := by omega
    norm_num [INT_MAX]
    exact_mod_cast hdle

/-- The shortest alternating walk to the last node `2^30` of the collision
input has exactly `2^31 - 1 = INT_MAX` edges. -/
theorem cex_lastDist : MinNodeDist cexRed cexBlue (2 ^ 30) (2 ^ 31 - 1) := by
  have hpow : (2 : Nat) ^ 30 = 1073741824 := by norm_num
  have hpow31 : (2 : Nat) ^ 31 = 2147483648 := by norm_num
  have hex : AltReach cexRed cexBlue (2 ^ 30) 0 (2 ^ 31 - 1) := by
    have := (cexReach_exists (2 ^ 30)).1 (by omega) le_rfl
    have heq : 2 * 2 ^ 30 - 1 = 2 ^ 31 - 1 := by omega
    rwa [heq] at this
  refine ⟨⟨0, hex⟩, ?_⟩
  rintro d2 ⟨c2, hc2⟩
  rcases cexReach_bound hc2 with ⟨hv0, _⟩ | ⟨h1, h2, ⟨hc, hge⟩ | ⟨hc, h3, hge⟩⟩
  · omega
  · omega
  · omega

/-- Lower bounds for the overflow input (self-loops at every node
`1 ≤ i ≤ 2^30`). -/
theorem cexOv_bound {v c d : Nat}
    (h : AltReach cexRed cexOvBlue v c d) :
    (v = 0 ∧ d = 0) ∨
    (1 ≤ v ∧ v ≤ 2 ^ 30 ∧
      ((c = 0 ∧ 2 * v - 1 ≤ d) ∨ (c = 1 ∧ 2 * v ≤ d))) := by
  induction h with
  | start c hc => exact Or.inl ⟨rfl, rfl⟩
  | step hprev hedge hne ihv =>
    rename_i u p d0 w cw
    have hp2 := AltReach_color_lt hprev
    have hpow : (2 : Nat) ^ 30 = 1073741824 := by norm_num
    rcases hedge with ⟨hc0, hm⟩ | ⟨hc1, hm⟩
    · -- a red chain edge: w = u + 1 with u < 2^30
      subst hc0
      rw [cexRed, List.mem_map] at hm
      obtain ⟨k, hk, he⟩ := hm
      rw [List.mem_range] at hk
      rw [Prod.mk.injEq] at he
      obtain ⟨he1, he2⟩ := he
      have hu : u = k := by exact_mod_cast he1.symm
      have hw : w = k + 1 := by exact_mod_cast he2.symm
      subst hu
      subst hw
      have hp1 : p = 1 := by omega
      subst hp1
      rcases ihv with ⟨hu0, hd0⟩ | ⟨hu1, hule, ⟨hc, hge⟩ | ⟨hc, hge⟩⟩
      · exact Or.inr ⟨by omega, by omega, Or.inl ⟨rfl, by omega⟩⟩
      · exact absurd hc (by omega)
      · exact Or.inr ⟨by omega, by omega, Or.inl ⟨rfl, by omega⟩⟩
    · -- a blue self-loop: w = u with 1 ≤ u ≤ 2^30
      subst hc1
      rw [cexOvBlue, List.mem_map] at hm
      obtain ⟨k, hk, he⟩ := hm
      rw [List.mem_range] at hk
      rw [Prod.mk.injEq] at he
      obtain ⟨he1, he2⟩ := he
      have hu : u = k + 1 := by exact_mod_cast he1.symm
      have hw : w = k + 1 := by exact_mod_cast he2.symm
      subst hu
      subst hw
      have hp0 : p = 0 := by omega
      subst hp0
      rcases ihv with ⟨hu0, hd0⟩ | ⟨hu1, hule, ⟨hc, hge⟩ | ⟨hc, hge⟩⟩
      · exact absurd hu0 (by omega)
      · exact Or.inr ⟨by omega, by omega, Or.inr ⟨rfl, by omega⟩⟩
      · exact absurd hc (by omega)

/-- Monotonicity of reachability in the blue edge set. -/
theorem AltReach_blueMono {red blue blueb : EdgeList}
    (hsub : ∀ e ∈ blue, e ∈ blueb) {v c d : Nat}
    (h : AltReach red blue v c d) : AltReach red blueb v c d := by
  induction h with
  | start c hc => exact AltReach.start c hc
  | step hprev hedge hne ihv =>
    refine AltReach.step ihv ?_ hne
    rcases hedge with ⟨hc, hm⟩ | ⟨hc, hm⟩
    · exact Or.inl ⟨hc, hm⟩
    · exact Or.inr ⟨hc, hsub _ hm⟩

/-- With the extra self-loop at the last node, the state `(2^30, blue)` lies
at exact distance `2^31 > INT_MAX`. -/
theorem cexOv_overflowState :
    ∃ d, MinSD cexRed cexOvBlue (2 ^ 30) 1 d ∧ INT_MAX < (d : Int) := by
  have hpow : (2 : Nat) ^ 30 = 1073741824 := by norm_num
  have hpow31 : (2 : Nat) ^ 31 = 2147483648 := by norm_num
  have hsub : ∀ e ∈ cexBlue, e ∈ cexOvBlue := by
    intro e he
    rw [cexBlue, List.mem_map] at he
    obtain ⟨k, hk, rfl⟩ := he
    rw [List.mem_range] at hk
    rw [cexOvBlue, List.mem_map]
    exact ⟨k, List.mem_range.mpr (by omega), rfl⟩
  have hred : AltReach cexRed cexOvBlue (2 ^ 30) 0 (2 ^ 31 - 1) := by
    refine AltReach_blueMono hsub ?_
    have := (cexReach_exists (2 ^ 30)).1 (by omega) le_rfl
    have heq : 2 * 2 ^ 30 - 1 = 2 ^ 31 - 1 := by omega
    rwa [heq] at this
  have hedge : edgeIn cexRed cexOvBlue (2 ^ 30) (2 ^ 30) 1 := by
    refine Or.inr ⟨rfl, ?_⟩
    rw [cexOvBlue, List.mem_map]
    refine ⟨2 ^ 30 - 1, List.mem_range.mpr (by omega), ?_⟩
    rw [Prod.mk.injEq]
    constructor
    · push_cast
      try omega
    · push_cast
      try omega
  have hreach : AltReach cexRed cexOvBlue (2 ^ 30) 1 (2 ^ 31 - 1 + 1) :=
    AltReach.step hred hedge (by omega)
  obtain ⟨dm, hdm, hdle⟩ := exists_minSD hreach
  refine ⟨dm, hdm, ?_⟩
  have hlow : 2 * 2 ^ 30 ≤ dm := by
    rcases cexOv_bound hdm.1 with ⟨hv0, _⟩ | ⟨h1, h2, ⟨hc, hge⟩ | ⟨hc, hge⟩⟩
    · omega
    · omega
    · omega
  have : (2147483648 : Nat) ≤ dm := by omega
  norm_num [INT_MAX]
  omega

/-! ### Uniqueness and transport of the entry specification -/

theorem shortestAlternatingPaths_entrySpec {n : Nat} {red blue : EdgeList}
    (hn : 1 ≤ n) (hr : ValidEdges n red) (hb : ValidEdges n blue)
    (hbd : ∀ v c d, MinSD red blue v c d → (d : Int) ≤ INT_MAX) :
    ∃ out, shortestAlternatingPaths n red blue = some out ∧ out.length = n ∧
      ∀ v, v < n → EntrySpec red blue v (out.getD v 0) := by
  obtain ⟨out, h1, h2, h3⟩ := shortestAlternatingPaths_spec hn hr hb hbd
  refine ⟨out, h1, h2, fun v hv => ?_⟩
  rcases h3 v hv with ⟨d, hd1, hd2, hd3⟩ | h
  · exact Or.inl ⟨d, hd1, hd2, hd3⟩
  · exact Or.inr h

/-- The specification determines each entry uniquely. -/
theorem EntrySpec_unique {red blue : EdgeList} {v : Nat} {e1 e2 : Int}
    (h1 : EntrySpec red blue v e1) (h2 : EntrySpec red blue v e2) :
    e1 = e2 := by
  rcases h1 with ⟨d1, hm1, hlt1, he1⟩ | ⟨he1, hu1⟩ <;>
    rcases h2 with ⟨d2, hm2, hlt2, he2⟩ | ⟨he2, hu2⟩
  · rw [he1, he2, MinNodeDist_unique hm1 hm2]
  · exfalso
    rcases hu2 with hu2 | ⟨d2, hm2, hge2⟩
    · obtain ⟨c, hc⟩ := hm1.1
      exact hu2 c d1 hc
    · rw [MinNodeDist_unique hm1 hm2] at hlt1
      omega
  · exfalso
    rcases hu1 with hu1 | ⟨d1, hm1, hge1⟩
    · obtain ⟨c, hc⟩ := hm2.1
      exact hu1 c d2 hc
    · rw [MinNodeDist_unique hm2 hm1] at hlt2
      omega
  · rw [he1, he2]

/-- `EntrySpec` only depends on the colored-edge relation through the
reachability predicates. -/
theorem EntrySpec_transport {red1 blue1 red2 blue2 : EdgeList} {v : Nat}
    {e : Int}
    (hAR : ∀ c d : Nat, AltReach red1 blue1 v c d →
      ∃ c2, AltReach red2 blue2 v c2 d)
    (hAR2 : ∀ c d : Nat, AltReach red2 blue2 v c d →
      ∃ c1, AltReach red1 blue1 v c1 d)
    (h : EntrySpec red1 blue1 v e) : EntrySpec red2 blue2 v e := by
  have hmnd : ∀ d, MinNodeDist red1 blue1 v d → MinNodeDist red2 blue2 v d := by
    rintro d ⟨⟨c, hc⟩, hmin⟩
    obtain ⟨c2, hc2⟩ := hAR c d hc
    refine ⟨⟨c2, hc2⟩, ?_⟩
    rintro d2 ⟨c3, hc3⟩
    obtain ⟨c1, hc1⟩ := hAR2 c3 d2 hc3
    exact hmin d2 ⟨c1, hc1⟩
  rcases h with ⟨d, hm, hlt, he⟩ | ⟨he, hu⟩
  · exact Or.inl ⟨d, hmnd d hm, hlt, he⟩
  · refine Or.inr ⟨he, ?_⟩
    rcases hu with hu | ⟨d, hm, hge⟩
    · refine Or.inl ?_
      intro c d hc
      obtain ⟨c1, hc1⟩ := hAR2 c d hc
      exact hu c1 d hc1
    · exact Or.inr ⟨d, hmnd d hm, hge⟩

theorem getD_eq_getElem {α : Type} {l : List α} {v : Nat} (d : α)
    (h : v < l.length) : l.getD v d = l[v] := by
  rw [List.getD_eq_getElem?_getD, (List.getElem?_eq_some).mpr ⟨h, rfl⟩]
  rfl

/-! ### Color-swap and permutation transport of reachability -/

theorem AltReach_swap {red blue : EdgeList} {v c d : Nat}
    (h : AltReach red blue v c d) : AltReach blue red v (1 - c) d := by
  induction h with
  | start c hc => exact AltReach.start (1 - c) (by omega)
  | step hprev hedge hne ihv =>
    refine AltReach.step ihv ?_ ?_
    · rcases hedge with ⟨hc, hm⟩ | ⟨hc, hm⟩
      · exact Or.inr ⟨by omega, hm⟩
      · exact Or.inl ⟨by omega, hm⟩
    · have hc2 := edgeIn_color_lt hedge
      have hp2 := AltReach_color_lt hprev
      omega

theorem edgeIn_perm {red blue red' blue' : EdgeList} {u v c : Nat}
    (hr : red'.Perm red) (hb : blue'.Perm blue)
    (h : edgeIn red' blue' u v c) : edgeIn red blue u v c := by
  rcases h with ⟨hc, hm⟩ | ⟨hc, hm⟩
  · exact Or.inl ⟨hc, hr.mem_iff.mp hm⟩
  · exact Or.inr ⟨hc, hb.mem_iff.mp hm⟩

theorem AltReach_perm {red blue red' blue' : EdgeList} {v c d : Nat}
    (hr : red'.Perm red) (hb : blue'.Perm blue)
    (h : AltReach red' blue' v c d) : AltReach red blue v c d := by
  induction h with
  | start c hc => exact AltReach.start c hc
  | step hprev hedge hne ihv =>
    exact AltReach.step ihv (edgeIn_perm hr hb hedge) hne

theorem ValidEdges_perm {n : Nat} {es es' : EdgeList} (hp : es'.Perm es)
    (h : ValidEdges n es) : ValidEdges n es' := fun e he =>
  h e (hp.mem_iff.mp he)

/-- Exact state distances transport along the color swap (the color tag is
relabelled `c ↦ 1 - c`). -/
theorem MinSD_swap {red blue : EdgeList} {v c d : Nat}
    (h : MinSD red blue v c d) : MinSD blue red v (1 - c) d := by
  have hc2 : c < 2 := AltReach_color_lt h.1
  refine ⟨AltReach_swap h.1, ?_⟩
  intro d2 h2
  have h3 := AltReach_swap h2
  have hcc : 1 - (1 - c) = c := by omega
  rw [hcc] at h3
  exact h.2 d2 h3

/-- Exact state distances transport along permutations of the edge lists. -/
theorem MinSD_perm {red blue red' blue' : EdgeList} {v c d : Nat}
    (hpr : red'.Perm red) (hpb : blue'.Perm blue)
    (h : MinSD red' blue' v c d) : MinSD red blue v c d :=
  ⟨AltReach_perm hpr hpb h.1, fun d2 h2 =>
    h.2 d2 (AltReach_perm hpr.symm hpb.symm h2)⟩

/-! ### A pigeonhole bound on exact state distances

States at distinct exact distances are distinct states, every distance below
an attained one is attained, and a valid input has at most `2*n` states — so
every exact state distance is below `2*n`.  In particular, for `n ≤ 2^30`
every exact state distance fits under `INT_MAX` and the run is free of
signed overflow. -/

theorem minSD_pred {red blue : EdgeList} {v c e : Nat}
    (h : MinSD red blue v c (e + 1)) : ∃ w p, MinSD red blue w p e := by
  obtain ⟨w, p, hw, hedge, hne⟩ := AltReach_succ h.1
  obtain ⟨e2, hmin, hle⟩ := exists_minSD hw
  rcases Nat.lt_or_ge e2 e with hlt | hge
  · exfalso
    have hstep : AltReach red blue v c (e2 + 1) :=
      AltReach.step hmin.1 hedge hne
    have := h.2 _ hstep
    omega
  · have he2 : e2 = e := by omega
    subst he2
    exact ⟨w, p, hmin⟩

theorem minSD_downward {red blue : EdgeList} :
    ∀ d : Nat, ∀ {v c : Nat}, MinSD red blue v c d →
      ∀ e, e ≤ d → ∃ w p, MinSD red blue w p e ∧ p < 2 := by
  intro d
  induction d with
  | zero =>
    intro v c h e he
    have he0 : e = 0 := by omega
    subst he0
    exact ⟨v, c, h, AltReach_color_lt h.1⟩
  | succ m ih =>
    intro v c h e he
    rcases Nat.eq_or_lt_of_le he with heq | hlt
    · subst heq
      exact ⟨v, c, h, AltReach_color_lt h.1⟩
    · obtain ⟨w, p, hw⟩ := minSD_pred h
      exact ih hw e (by omega)

theorem minSD_le {n : Nat} {red blue : EdgeList} {v c d : Nat}
    (hn : 1 ≤ n) (hr : ValidEdges n red) (hb : ValidEdges n blue)
    (h : MinSD red blue v c d) : d + 1 ≤ 2 * n := by
  classical
  have hex : ∀ e : Fin (d + 1), ∃ w p, MinSD red blue w p e.val ∧ p < 2 :=
    fun e => minSD_downward d h e.val (by omega)
  choose w p hmin hp2 using hex
  have hwlt : ∀ e, w e < n := fun e =>
    AltReach_node_lt hn hr hb (hmin e).1
  have hinj : Function.Injective
      (fun e : Fin (d + 1) =>
        ((⟨w e, hwlt e⟩ : Fin n), (⟨p e, hp2 e⟩ : Fin 2))) := by
    intro i j hij
    rw [Prod.mk.injEq] at hij
    obtain ⟨h1, h2⟩ := hij
    have hw' : w i = w j := by simpa using congrArg Fin.val h1
    have hp' : p i = p j := by simpa using congrArg Fin.val h2
    have hm2 : MinSD red blue (w i) (p i) j.val := by
      rw [hw', hp']
      exact hmin j
    have hval : (i : Nat) = (j : Nat) := MinSD_unique (hmin i) hm2
    exact Fin.ext hval
  have hcard := Fintype.card_le_of_injective _ hinj
  simp only [Fintype.card_fin, Fintype.card_prod] at hcard
  omega

theorem minsd_le_of_small {n : Nat} {red blue : EdgeList}
    (hn : 1 ≤ n) (hr : ValidEdges n red) (hb : ValidEdges n blue)
    (hsmall : n ≤ 2 ^ 30) :
    ∀ v c d, MinSD red blue v c d → (d : Int) ≤ INT_MAX := by
  intro v c d h
  have hle := minSD_le hn hr hb h
  have hpow : (2 : Nat) ^ 30 = 1073741824 := by norm_num
  have hdle : d ≤ 2147483647 := by omega
  norm_num [INT_MAX]
  exact_mod_cast hdle

/-! ## The claims -/

/-- C1 (amended).  For every input with `n ≥ 1` and all edge endpoints in
`[0, n-1]`: provided no state of the expanded search space lies at exact
distance beyond `INT_MAX` (automatic whenever `n ≤ 2^30`), the returned
sequence has length `n`, its entry 0 is 0 (the empty walk), and its `i`-th
entry equals the minimum number of edges over all walks from node 0 to node
`i` in which no two consecutive edges share a color, whenever that minimum is
at most `2^31 - 2`; the entry is `-1` when no such walk exists — or when the
minimum is exactly `2^31 - 1 = INT_MAX` and so collides with the internal
sentinel (see the counterexample).  When some state lies at exact distance
beyond `INT_MAX`, the body evaluates `currentDistance + 1` past `INT_MAX` in
`int` — signed overflow, undefined behavior, the error result. -/
theorem claim_C1 {n : Nat} {red blue : EdgeList} (hn : 1 ≤ n)
    (hr : ValidEdges n red) (hb : ValidEdges n blue) :
    ((∀ v c d, MinSD red blue v c d → (d : Int) ≤ INT_MAX) →
      ∃ out, shortestAlternatingPaths n red blue = some out ∧
        out.length = n ∧ out.getD 0 0 = 0 ∧
        ∀ v, v < n → EntrySpec red blue v (out.getD v 0)) ∧
    ((∃ v c d, MinSD red blue v c d ∧ INT_MAX < (d : Int)) →
      shortestAlternatingPaths n red blue = none) := by
  constructor
  · intro hbd
    obtain ⟨out, h1, h2, h3⟩ :=
      shortestAlternatingPaths_entrySpec hn hr hb hbd
    refine ⟨out, h1, h2, ?_, h3⟩
    rcases h3 0 hn with ⟨d, hm, _, he⟩ | ⟨_, hu⟩
    · rw [he, MinNodeDist_unique hm (minNodeDist_zero red blue)]
      simp
    · exfalso
      rcases hu with hu | ⟨d, hm, hge⟩
      · exact hu 0 0 (AltReach.start 0 (by omega))
      · rw [MinNodeDist_unique hm (minNodeDist_zero red blue)] at hge
        norm_num [INT_MAX] at hge
  · rintro ⟨v, c, d, hm, hlt⟩
    exact shortestAlternatingPaths_overflow hn hr hb hm hlt

/-- C1 fails as stated, at a representable input on which no overflow occurs:
`n = 2^30 + 1 ≤ INT_MAX`, a red chain `i -> i+1` and a blue self-loop at
every interior node.  Node `2^30` is reachable, every alternating walk to it
has at least `2^31 - 1` edges and one attains exactly that length (the
minimum is `2^31 - 1 = INT_MAX`), no state distance exceeds `INT_MAX`, yet
the returned entry is `-1` rather than the minimum — the genuine distance
collides with the `INT_MAX` sentinel of the final pass. -/
theorem claim_C1_counterexample :
    1 ≤ cexN ∧ ((cexN : Nat) : Int) ≤ INT_MAX ∧
    ValidEdges cexN cexRed ∧ ValidEdges cexN cexBlue ∧
    ∃ out, shortestAlternatingPaths cexN cexRed cexBlue = some out ∧
      out.getD (2 ^ 30) 0 = -1 ∧
      AltReach cexRed cexBlue (2 ^ 30) 0 (2 ^ 31 - 1) ∧
      (∀ c d, AltReach cexRed cexBlue (2 ^ 30) c d → 2 ^ 31 - 1 ≤ d) ∧
      (-1 : Int) ≠ ((2 ^ 31 - 1 : Nat) : Int) := by
  have hpow : (2 : Nat) ^ 30 = 1073741824 := by norm_num
  have hpow31 : (2 : Nat) ^ 31 = 2147483648 := by norm_num
  have hn : 1 ≤ cexN := by norm_num [cexN]
  refine ⟨hn, by norm_num [cexN, INT_MAX], cexRed_valid, cexBlue_valid, ?_⟩
  obtain ⟨out, hout, hlen, hspec⟩ :=
    shortestAlternatingPaths_spec hn cexRed_valid cexBlue_valid cex_noOverflow
  have hex : AltReach cexRed cexBlue (2 ^ 30) 0 (2 ^ 31 - 1) := by
    have := (cexReach_exists (2 ^ 30)).1 (by omega) le_rfl
    have heq : 2 * 2 ^ 30 - 1 = 2 ^ 31 - 1 := by omega
    rwa [heq] at this
  have hcastIM : ((2 ^ 31 - 1 : Nat) : Int) = 2147483647 := by norm_num
  refine ⟨out, hout, ?_, hex, fun c d h => cex_lastDist.2 d ⟨c, h⟩, ?_⟩
  · rcases hspec (2 ^ 30) (by norm_num [cexN]) with
      ⟨d, hmin, hlt2, _⟩ | ⟨hm1, _⟩
    · exfalso
      rw [MinNodeDist_unique hmin cex_lastDist] at hlt2
      rw [hcastIM] at hlt2
      norm_num [INT_MAX] at hlt2
    · exact hm1
  · rw [hcastIM]
    norm_num

/-- C2 (amended).  Replacing `dist[neighbor] = std::min(dist[neighbor],
currentDistance + 1)` by the unconditional `dist[neighbor] = currentDistance
+ 1` is NOT output-preserving: the outputs can differ (see the
counterexample).  What does hold: the variant fails exactly when the
original fails, and whenever the original returns a sequence the variant
returns one of the same length whose entry 0 is still 0, as in the
original. -/
theorem claim_C2 {n : Nat} {red blue : EdgeList} (hn : 1 ≤ n)
    (hr : ValidEdges n red) (hb : ValidEdges n blue) :
    (shortestAlternatingPathsNoMin n red blue = none ↔
      shortestAlternatingPaths n red blue = none) ∧
    ∀ out, shortestAlternatingPaths n red blue = some out →
      ∃ outV, shortestAlternatingPathsNoMin n red blue = some outV ∧
        outV.length = out.length ∧ out.getD 0 0 = 0 ∧ outV.getD 0 0 = 0 :=
  noMin_lockstep n red blue

/-- C2 fails as stated: on the valid input `n = 3`,
`redEdges = [[1,2]]`, `blueEdges = [[0,2],[0,1]]` the original returns
`[0,1,1]` (node 2 first reached via blue at distance 1, later revisited via
red at distance 2, where the `min` keeps 1) while the unconditional-assignment
variant returns `[0,1,2]`. -/
theorem claim_C2_counterexample :
    ValidEdges 3 [((1 : Int), (2 : Int))] ∧
    ValidEdges 3 [((0 : Int), (2 : Int)), ((0 : Int), (1 : Int))] ∧
    shortestAlternatingPaths 3 [((1 : Int), (2 : Int))]
      [((0 : Int), (2 : Int)), ((0 : Int), (1 : Int))] = some [0, 1, 1] ∧
    shortestAlternatingPathsNoMin 3 [((1 : Int), (2 : Int))]
      [((0 : Int), (2 : Int)), ((0 : Int), (1 : Int))] = some [0, 1, 2] ∧
    shortestAlternatingPathsNoMin 3 [((1 : Int), (2 : Int))]
        [((0 : Int), (2 : Int)), ((0 : Int), (1 : Int))] ≠
      shortestAlternatingPaths 3 [((1 : Int), (2 : Int))]
        [((0 : Int), (2 : Int)), ((0 : Int), (1 : Int))] :=
  ⟨by decide, by decide, by decide, by decide, by decide⟩

/-- C3 (amended).  The source performs no argument validation and signals no
errors.  On inputs with all endpoints in range and all state distances at
most `INT_MAX` it returns a length-`n` distance sequence.  An out-of-range
endpoint is NOT reported through an invalid-argument mechanism: as the
counterexample shows, the function can simply return a distance sequence;
when the bad index is actually accessed the result is an out-of-bounds
`vector` access (undefined behavior, modelled as the error result `none`),
not a signalled error — and a state distance beyond `INT_MAX` likewise leads
to signed-overflow undefined behavior, not to an error report. -/
theorem claim_C3 {n : Nat} {red blue : EdgeList} (hn : 1 ≤ n)
    (hr : ValidEdges n red) (hb : ValidEdges n blue)
    (hbd : ∀ v c d, MinSD red blue v c d → (d : Int) ≤ INT_MAX) :
    ∃ out, shortestAlternatingPaths n red blue = some out ∧
      out.length = n := by
  obtain ⟨sF, h1, _, _, hlen⟩ := shortestAlternatingPaths_run hn hr hb hbd
  exact ⟨finalize sF.dist, h1, by simp [finalize, hlen]⟩

/-- C3 fails as stated: the input `n = 2`, `redEdges = [[1,5]]`,
`blueEdges = []` has the out-of-range endpoint 5, yet the function computes
and returns the distance sequence `[0,-1]` — no invalid-argument condition is
signalled. -/
theorem claim_C3_counterexample :
    ¬ ValidEdges 2 [((1 : Int), (5 : Int))] ∧
    shortestAlternatingPaths 2 [((1 : Int), (5 : Int))] [] = some [0, -1] :=
  ⟨by decide, by decide⟩

/-- C4 fails of the code as written.  The loop does stop after at most `2*n`
iterations while it runs (at most one push per `(node, color)` state — see
C5 — so fuel `2*n + 1` suffices in every successful run of the other
claims), but the function is NOT total on valid inputs: on this valid input —
`n = 2^30 + 1`, the red chain `i -> i+1` with a blue self-loop at every node
`1..2^30` — the state `(2^30, red)` is popped at distance `INT_MAX` while
its blue self-loop successor is still unvisited, and the body evaluates
`currentDistance + 1 = INT_MAX + 1` in `int`: signed overflow, undefined
behavior (the error result of the model). -/
theorem claim_C4 :
    1 ≤ cexN ∧ ValidEdges cexN cexRed ∧ ValidEdges cexN cexOvBlue ∧
    shortestAlternatingPaths cexN cexRed cexOvBlue = none := by
  have hn : 1 ≤ cexN := by norm_num [cexN]
  refine ⟨hn, cexRed_valid, cexOvBlue_valid, ?_⟩
  obtain ⟨d, hm, hlt⟩ := cexOv_overflowState
  exact shortestAlternatingPaths_overflow hn cexRed_valid cexOvBlue_valid
    hm hlt

/-- C5.  Invariant of the BFS step relation: one iteration of the loop pops
the head of the queue and only appends new tuples at the back; visited flags
only go from `false` to `true`; every pushed tuple's `(node, color)` state was
unvisited before the step and is visited after it (the push happens exactly at
that transition); and no state is pushed twice. -/
theorem claim_C5 {adj : List (List (Int × Nat))} {s s' : BfsState}
    {x : Int × Int × Nat} {rest : List (Int × Int × Nat)}
    (hq : s.q = x :: rest) (h : bfsStep adj s = some s') :
    (∀ v c, flagOn s.visited v c = true → flagOn s'.visited v c = true) ∧
    ∃ nw, s'.q = rest ++ nw ∧
      (∀ y ∈ nw, ∃ vn : Nat, y.1 = (vn : Int) ∧
        flagOn s.visited vn y.2.2 = false ∧
        flagOn s'.visited vn y.2.2 = true) ∧
      nw.Pairwise (fun a b => ¬(a.1 = b.1 ∧ a.2.2 = b.2.2)) :=
  bfsStep_push_flip hq h

/-- C6.  Swapping the roles of the two edge lists — passing `blueEdges` as the
red list and `redEdges` as the blue list — leaves the output unchanged on
every valid input: only alternation matters, not the color labels (and when
one run aborts on signed overflow, so does the other: the state distances are
the same up to the color relabelling). -/
theorem claim_C6 {n : Nat} {red blue : EdgeList} (hn : 1 ≤ n)
    (hr : ValidEdges n red) (hb : ValidEdges n blue) :
    shortestAlternatingPaths n blue red =
      shortestAlternatingPaths n red blue := by
  by_cases hbd : ∀ v c d, MinSD red blue v c d → (d : Int) ≤ INT_MAX
  case pos =>
    have hbd2 : ∀ v c d, MinSD blue red v c d → (d : Int) ≤ INT_MAX := by
      intro v c d hm
      exact hbd v (1 - c) d (MinSD_swap hm)
    obtain ⟨out1, ho1, hl1, hs1⟩ :=
      shortestAlternatingPaths_entrySpec hn hr hb hbd
    obtain ⟨out2, ho2, hl2, hs2⟩ :=
      shortestAlternatingPaths_entrySpec hn hb hr hbd2
    rw [ho1, ho2]
    congr 1
    apply List.ext_getElem (by omega)
    intro i h2 h1
    have hE2 : EntrySpec red blue i (out2.getD i 0) := by
      refine EntrySpec_transport ?_ ?_ (hs2 i (by omega))
      · intro c d h
        exact ⟨1 - c, AltReach_swap h⟩
      · intro c d h
        exact ⟨1 - c, AltReach_swap h⟩
    have heq := EntrySpec_unique hE2 (hs1 i (by omega))
    rw [← getD_eq_getElem 0 h2, ← getD_eq_getElem 0 h1]
    exact heq
  case neg =>
    push_neg at hbd
    obtain ⟨v, c, d, hm, hlt⟩ := hbd
    rw [shortestAlternatingPaths_overflow hn hr hb hm hlt,
      shortestAlternatingPaths_overflow hn hb hr (MinSD_swap hm) hlt]

/-- C7.  On every valid input free of signed overflow (no state of the
expanded search space at exact distance beyond `INT_MAX`; automatic for
`n ≤ 2^30`), every entry of the returned sequence is either `-1` or a
non-negative integer strictly below `INT_MAX` — in particular the internal
`INT_MAX` sentinel never leaks through the final pass. -/
theorem claim_C7 {n : Nat} {red blue : EdgeList} (hn : 1 ≤ n)
    (hr : ValidEdges n red) (hb : ValidEdges n blue)
    (hbd : ∀ v c d, MinSD red blue v c d → (d : Int) ≤ INT_MAX) :
    ∃ out, shortestAlternatingPaths n red blue = some out ∧ out.length = n ∧
      ∀ v, v < n → out.getD v 0 = -1 ∨
        (0 ≤ out.getD v 0 ∧ out.getD v 0 < INT_MAX) := by
  obtain ⟨out, h1, h2, h3⟩ := shortestAlternatingPaths_entrySpec hn hr hb hbd
  refine ⟨out, h1, h2, fun v hv => ?_⟩
  rcases h3 v hv with ⟨d, _, hlt, he⟩ | ⟨he, _⟩
  · right
    rw [he]
    exact ⟨by positivity, hlt⟩
  · left
    exact he

/-- C8.  The function is deterministic and stateless.  In the store-threaded
model, running the function a second time on the store returned by a first
successful run (the arguments are unchanged — see C9) produces exactly the
same output and store: no hidden state is carried between calls. -/
theorem claim_C8 {n : Nat} {st : Store} {out1 : List Int} {st1 : Store}
    (h : shortestAlternatingPathsST n st = some (out1, st1)) :
    shortestAlternatingPathsST n st1 = some (out1, st1) := by
  rw [shortestAlternatingPathsST_eq] at h
  cases hf : shortestAlternatingPaths n st.redEdges st.blueEdges with
  | none =>
    rw [hf] at h
    cases h
  | some out =>
    rw [hf] at h
    simp only [Option.map_some'] at h
    rw [Option.some.injEq, Prod.mk.injEq] at h
    obtain ⟨h1, h2⟩ := h
    subst h1
    subst h2
    rw [shortestAlternatingPathsST_eq, hf]
    rfl

/-- C9.  The function does not modify its caller-supplied inputs: the
store-threaded run — in which every phase of the body has the two
caller-owned vectors in scope and threads them through — returns
`redEdges`/`blueEdges` exactly as they were passed, alongside the plain
function's result. -/
theorem claim_C9 (n : Nat) (st : Store) :
    shortestAlternatingPathsST n st =
      (shortestAlternatingPaths n st.redEdges st.blueEdges).map
        (fun out => (out, st)) :=
  shortestAlternatingPathsST_eq n st

/-- C10.  The output depends only on the multiset of colored edges: permuting
the entries within `redEdges` and within `blueEdges` leaves the result
unchanged on every valid input, despite the different adjacency order and
queue processing order (and when one run aborts on signed overflow, so does
the other: the state distances are permutation-invariant). -/
theorem claim_C10 {n : Nat} {red blue red' blue' : EdgeList} (hn : 1 ≤ n)
    (hr : ValidEdges n red) (hb : ValidEdges n blue)
    (hpr : red'.Perm red) (hpb : blue'.Perm blue) :
    shortestAlternatingPaths n red' blue' =
      shortestAlternatingPaths n red blue := by
  by_cases hbd : ∀ v c d, MinSD red blue v c d → (d : Int) ≤ INT_MAX
  case pos =>
    have hbd2 : ∀ v c d, MinSD red' blue' v c d → (d : Int) ≤ INT_MAX := by
      intro v c d hm
      exact hbd v c d (MinSD_perm hpr hpb hm)
    obtain ⟨out1, ho1, hl1, hs1⟩ :=
      shortestAlternatingPaths_entrySpec hn hr hb hbd
    obtain ⟨out2, ho2, hl2, hs2⟩ := shortestAlternatingPaths_entrySpec hn
      (ValidEdges_perm hpr hr) (ValidEdges_perm hpb hb) hbd2
    rw [ho1, ho2]
    congr 1
    apply List.ext_getElem (by omega)
    intro i h2 h1
    have hE2 : EntrySpec red blue i (out2.getD i 0) := by
      refine EntrySpec_transport ?_ ?_ (hs2 i (by omega))
      · intro c d h
        exact ⟨c, AltReach_perm hpr hpb h⟩
      · intro c d h
        exact ⟨c, AltReach_perm hpr.symm hpb.symm h⟩
    have heq := EntrySpec_unique hE2 (hs1 i (by omega))
    rw [← getD_eq_getElem 0 h2, ← getD_eq_getElem 0 h1]
    exact heq
  case neg =>
    push_neg at hbd
    obtain ⟨v, c, d, hm, hlt⟩ := hbd
    rw [shortestAlternatingPaths_overflow hn hr hb hm hlt,
      shortestAlternatingPaths_overflow hn (ValidEdges_perm hpr hr)
        (ValidEdges_perm hpb hb) (MinSD_perm hpr.symm hpb.symm hm) hlt]

/-! ## Witnesses: each theorem with hypotheses applied at a concrete input -/

theorem claim_C1_witness :
    1 ≤ 3 ∧ ValidEdges 3 [((0 : Int), (1 : Int))] ∧
    ValidEdges 3 [((1 : Int), (2 : Int))] ∧
    (∃ out, shortestAlternatingPaths 3 [((0 : Int), (1 : Int))]
        [((1 : Int), (2 : Int))] = some out ∧ out.length = 3 ∧
      out.getD 0 0 = 0 ∧ ∀ v, v < 3 →
        EntrySpec [((0 : Int), (1 : Int))] [((1 : Int), (2 : Int))] v
          (out.getD v 0)) :=
  ⟨by decide, by decide, by decide,
    (claim_C1 (by decide) (by decide) (by decide)).1
      (@minsd_le_of_small 3 [((0 : Int), (1 : Int))] [((1 : Int), (2 : Int))]
        (by decide) (by decide) (by decide) (by decide))⟩

theorem claim_C2_witness :
    1 ≤ 3 ∧ ValidEdges 3 [((1 : Int), (2 : Int))] ∧
    ValidEdges 3 [((0 : Int), (2 : Int)), ((0 : Int), (1 : Int))] ∧
    (∃ outV, shortestAlternatingPathsNoMin 3 [((1 : Int), (2 : Int))]
        [((0 : Int), (2 : Int)), ((0 : Int), (1 : Int))] = some outV ∧
      outV.length = ([0, 1, 1] : List Int).length ∧
      ([0, 1, 1] : List Int).getD 0 0 = 0 ∧ outV.getD 0 0 = 0) :=
  ⟨by decide, by decide, by decide,
    (claim_C2 (by decide) (by decide) (by decide)).2 [0, 1, 1] (by decide)⟩

theorem claim_C3_witness :
    1 ≤ 1 ∧ ValidEdges 1 ([] : EdgeList) ∧ ValidEdges 1 ([] : EdgeList) ∧
    (∃ out, shortestAlternatingPaths 1 [] [] = some out ∧ out.length = 1) :=
  ⟨by decide, by decide, by decide,
    claim_C3 (by decide) (by decide) (by decide)
      (@minsd_le_of_small 1 [] [] (by decide) (by decide) (by decide)
        (by decide))⟩

theorem claim_C5_witness :
    (BfsState.mk [0, INT_MAX] [(true, true), (false, false)]
        [((0 : Int), (0 : Int), 0)]).q = ((0 : Int), (0 : Int), 0) :: [] ∧
    bfsStep [[((1 : Int), 1)], []]
        (BfsState.mk [0, INT_MAX] [(true, true), (false, false)]
          [((0 : Int), (0 : Int), 0)]) =
      some (BfsState.mk [0, 1] [(true, true), (false, true)]
        [((1 : Int), (1 : Int), 1)]) ∧
    ((∀ v c, flagOn [(true, true), (false, false)] v c = true →
        flagOn [(true, true), (false, true)] v c = true) ∧
      ∃ nw, ([((1 : Int), (1 : Int), 1)] : List (Int × Int × Nat)) =
          [] ++ nw ∧
        (∀ y ∈ nw, ∃ vn : Nat, y.1 = (vn : Int) ∧
          flagOn [(true, true), (false, false)] vn y.2.2 = false ∧
          flagOn [(true, true), (false, true)] vn y.2.2 = true) ∧
        nw.Pairwise (fun a b => ¬(a.1 = b.1 ∧ a.2.2 = b.2.2))) :=
  ⟨rfl, by decide,
    @claim_C5 [[((1 : Int), 1)], []]
      (BfsState.mk [0, INT_MAX] [(true, true), (false, false)]
        [((0 : Int), (0 : Int), 0)])
      (BfsState.mk [0, 1] [(true, true), (false, true)]
        [((1 : Int), (1 : Int), 1)])
      ((0 : Int), (0 : Int), 0) [] rfl (by decide)⟩

theorem claim_C6_witness :
    1 ≤ 3 ∧ ValidEdges 3 [((0 : Int), (1 : Int))] ∧
    ValidEdges 3 [((2 : Int), (1 : Int))] ∧
    shortestAlternatingPaths 3 [((2 : Int), (1 : Int))]
        [((0 : Int), (1 : Int))] =
      shortestAlternatingPaths 3 [((0 : Int), (1 : Int))]
        [((2 : Int), (1 : Int))] :=
  ⟨by decide, by decide, by decide,
    claim_C6 (by decide) (by decide) (by decide)⟩

theorem claim_C7_witness :
    1 ≤ 3 ∧ ValidEdges 3 [((0 : Int), (1 : Int))] ∧
    ValidEdges 3 [((2 : Int), (1 : Int))] ∧
    (∃ out, shortestAlternatingPaths 3 [((0 : Int), (1 : Int))]
        [((2 : Int), (1 : Int))] = some out ∧ out.length = 3 ∧
      ∀ v, v < 3 → out.getD v 0 = -1 ∨
        (0 ≤ out.getD v 0 ∧ out.getD v 0 < INT_MAX)) :=
  ⟨by decide, by decide, by decide,
    claim_C7 (by decide) (by decide) (by decide)
      (@minsd_le_of_small 3 [((0 : Int), (1 : Int))] [((2 : Int), (1 : Int))]
        (by decide) (by decide) (by decide) (by decide))⟩

theorem claim_C8_witness :
    shortestAlternatingPathsST 3
        ⟨[((0 : Int), (1 : Int))], [((1 : Int), (2 : Int))]⟩ =
      some ([0, 1, 2],
        ⟨[((0 : Int), (1 : Int))], [((1 : Int), (2 : Int))]⟩) ∧
    shortestAlternatingPathsST 3
        ⟨[((0 : Int), (1 : Int))], [((1 : Int), (2 : Int))]⟩ =
      some ([0, 1, 2],
        ⟨[((0 : Int), (1 : Int))], [((1 : Int), (2 : Int))]⟩) :=
  ⟨by decide,
    @claim_C8 3 ⟨[((0 : Int), (1 : Int))], [((1 : Int), (2 : Int))]⟩
      [0, 1, 2] ⟨[((0 : Int), (1 : Int))], [((1 : Int), (2 : Int))]⟩
      (by decide)⟩

theorem claim_C10_witness :
    1 ≤ 3 ∧ ValidEdges 3 [((0 : Int), (1 : Int)), ((1 : Int), (2 : Int))] ∧
    ValidEdges 3 [((2 : Int), (1 : Int))] ∧
    List.Perm [((1 : Int), (2 : Int)), ((0 : Int), (1 : Int))]
      [((0 : Int), (1 : Int)), ((1 : Int), (2 : Int))] ∧
    List.Perm [((2 : Int), (1 : Int))] [((2 : Int), (1 : Int))] ∧
    shortestAlternatingPaths 3
        [((1 : Int), (2 : Int)), ((0 : Int), (1 : Int))]
        [((2 : Int), (1 : Int))] =
      shortestAlternatingPaths 3
        [((0 : Int), (1 : Int)), ((1 : Int), (2 : Int))]
        [((2 : Int), (1 : Int))] :=
  ⟨by decide, by decide, by decide, by decide, by decide,
    claim_C10 (by decide) (by decide) (by decide) (by decide) (by decide)⟩

end AltPaths
